import Mathlib

/-!
# Verification of the ba-solver (cardinality / pseudo-Boolean extension solver)

Shallow embedding of `src/sat/ba_solver.cpp`: the constraint data model
(cardinality and pseudo-Boolean constraints), the watched-literal propagation
engines (`init_watch` / `add_assign`), the conflict-resolution scratchpad
(`inc_coeff`, `inc_bound`, `cut`, `active2card`) and the constraint
construction entry points (`add_at_least`, `add_pb_ge`).

Machine integers are modelled as `Nat`/`Int` with the overflow checks of the
source made explicit against `INT_MAX`/`INT_MIN`/`UINT_MAX`; unsigned 32-bit
wrap-around is written as `% 2^32` at the points where the source relies on it.
-/

namespace BA

/-- `lbool` of the SAT core: `{l_true, l_false, l_undef}`. -/
inductive LBool where
  | ltrue
  | lfalse
  | lundef
deriving DecidableEq, Repr

/-- A literal is a boolean variable plus a sign bit (sign = negated). -/
structure Literal where
  var : Nat
  sign : Bool
deriving DecidableEq, Repr

/-- `~l`: literal negation. -/
def Literal.neg (l : Literal) : Literal := ⟨l.var, !l.sign⟩

/-- A weighted literal `wliteral = std::pair<unsigned, literal>`. -/
abbrev WLiteral := Nat × Literal

/-- Constants of the 32/64-bit overflow checks in the source. -/
def INT_MAX : Int := 2 ^ 31 - 1

def INT_MIN : Int := -(2 ^ 31)

def UINT_MAX : Int := 2 ^ 32 - 1

def UINT_MAXn : Nat := 2 ^ 32 - 1

-- ---------------------------------------------------------------
-- card / pb constraint records (`ba_solver::card`, `ba_solver::pb`)
-- ---------------------------------------------------------------

/-- `ba_solver::card`: literals `ℓ₁…ℓₙ` and threshold `k`; `lit` is the
optional reifying literal (`none` = `null_literal`). -/
structure Card where
  lit : Option Literal
  lits : List Literal
  k : Nat
deriving DecidableEq, Repr

/-- `ba_solver::pb`: weighted literals, threshold `k`, and the cached
`slack` / `num_watch` / `max_sum` fields. -/
structure PB where
  lit : Option Literal
  wlits : List WLiteral
  k : Nat
  slack : Nat
  numWatch : Nat
  maxSum : Nat
deriving DecidableEq, Repr

/-- `ba_solver::card::negate()`: negate the reifier and every literal and set
`k ← n − k + 1` (the source stores `k` in an `unsigned`; under the card
invariant `1 ≤ k ≤ n` the `Nat` subtraction below agrees with it). -/
def Card.negate (c : Card) : Card :=
  { c with
    lit := c.lit.map Literal.neg
    lits := c.lits.map Literal.neg
    k := c.lits.length - c.k + 1 }

/-- `ba_solver::pb::negate()`: negate the reifier and every literal and set
`k ← w − k + 1` where `w = Σ aᵢ` (weights are unchanged). -/
def PB.negate (p : PB) : PB :=
  { p with
    lit := p.lit.map Literal.neg
    wlits := p.wlits.map (fun wl => (wl.1, wl.2.neg))
    k := (p.wlits.map (·.1)).sum - p.k + 1 }

-- ---------------------------------------------------------------
-- Conflict-resolution scratchpad (`m_coeffs`, `m_active_vars`,
-- `m_bound`, `m_overflow`) and its primitive operations
-- ---------------------------------------------------------------

/-- Coefficient map `m_coeffs : bool_var → int64` (sparse association list;
absent variables have coefficient 0, matching `m_coeffs.get(v, 0)`). -/
def getc (m : List (Nat × Int)) (v : Nat) : Int :=
  match m.find? (fun p => p.1 == v) with
  | some p => p.2
  | none => 0

/-- Functional update of the coefficient map. -/
def setc (m : List (Nat × Int)) (v : Nat) (c : Int) : List (Nat × Int) :=
  match m with
  | [] => [(v, c)]
  | p :: t => if p.1 == v then (v, c) :: t else p :: setc t v c

/-- The resolver scratchpad: signed coefficients per variable, the ordered
list of active variables, the current bound (a `u32`), and the latched
overflow flag. -/
structure RState where
  coeffs : List (Nat × Int)
  activeVars : List Nat
  bound : Nat
  overflow : Bool
deriving DecidableEq, Repr

/-- `ba_solver::get_coeff`. -/
def RState.getCoeff (rs : RState) (v : Nat) : Int := getc rs.coeffs v

/-- `ba_solver::inc_bound(int64 i)`: add `i` to the bound with the source's
explicit `i32`/negative/`u32` range checks. -/
def incBound (rs : RState) (i : Int) : RState :=
  if i < INT_MIN ∨ i > INT_MAX then { rs with overflow := true }
  else
    let newBound : Int := (rs.bound : Int) + i
    if newBound < 0 then { rs with overflow := true }
    else if newBound > UINT_MAX then { rs with overflow := true }
    else { rs with bound := newBound.toNat }

/-- `ba_solver::inc_coeff(literal l, unsigned offset)`: add `±offset` to the
coefficient of `l.var` in signed 64-bit, latch `overflow` when the sum leaves
the `i32` range, adjust the bound on polarity cancellation, and finally clip
the stored coefficient against the (possibly updated) bound.  Note: for a
negative out-of-range coefficient the source stores `+m_bound` (not
`-m_bound`); see the C4 analysis. -/
def incCoeff (rs : RState) (l : Literal) (offset : Nat) : RState :=
  let v := l.var
  let coeff0 := rs.getCoeff v
  let rs := if coeff0 = 0 then { rs with activeVars := rs.activeVars ++ [v] } else rs
  let loffset : Int := (offset : Int)
  let inc := if l.sign then -loffset else loffset
  let coeff1 := inc + coeff0
  let rs := { rs with coeffs := setc rs.coeffs v coeff1 }
  if coeff1 > INT_MAX ∨ coeff1 < INT_MIN then { rs with overflow := true }
  else
    let rs :=
      if coeff0 > 0 ∧ inc < 0 then incBound rs (max 0 coeff1 - coeff0)
      else if coeff0 < 0 ∧ inc > 0 then incBound rs (coeff0 - min 0 coeff1)
      else rs
    if coeff1 > (rs.bound : Int) then { rs with coeffs := setc rs.coeffs v (rs.bound : Int) }
    else if coeff1 < 0 ∧ -coeff1 > (rs.bound : Int) then
      { rs with coeffs := setc rs.coeffs v (rs.bound : Int) }
    else rs

/-- `ba_solver::get_abs_coeff(v)`: absolute coefficient as `unsigned`,
latching `overflow` when the stored value is outside `(INT_MIN, UINT_MAX]`. -/
def getAbsCoeff (rs : RState) (v : Nat) : Nat × RState :=
  let c := rs.getCoeff v
  if c < INT_MIN + 1 ∨ c > UINT_MAX then (UINT_MAXn, { rs with overflow := true })
  else (c.natAbs, rs)

/-- `ba_solver::get_int_coeff(v)`: coefficient as `int`, latching `overflow`
when outside the `i32` range. -/
def getIntCoeff (rs : RState) (v : Nat) : Int × RState :=
  let c := rs.getCoeff v
  if c < INT_MIN ∨ c > INT_MAX then (0, { rs with overflow := true })
  else (c, rs)

/-- `ba_solver::normalize_active_coeffs()`: deduplicate `m_active_vars` and
drop variables whose coefficient is 0, keeping first occurrences in order. -/
def normalizeActiveCoeffs (rs : RState) : RState :=
  { rs with
    activeVars := rs.activeVars.foldl
      (fun acc v => if v ∈ acc ∨ getc rs.coeffs v = 0 then acc else acc ++ [v]) [] }

-- ---------------------------------------------------------------
-- `ba_solver::cut()`
-- ---------------------------------------------------------------

/-- First loop of `cut`: bypass the cut if some active variable has absolute
coefficient 1 (`get_abs_coeff` may latch `overflow` while scanning). -/
def cutBypass (rs : RState) : List Nat → Bool × RState
  | [] => (false, rs)
  | v :: t =>
    let (a, rs) := getAbsCoeff rs v
    if a = 1 then (true, rs) else cutBypass rs t

/-- Second loop of `cut`: fold the gcd over the active coefficients, clipping
any coefficient whose absolute value exceeds the bound to `±bound` (sign
preserved) before it enters the gcd.  The loop stops early once `g = 1`. -/
def cutGcd : RState → List Nat → Nat → Nat × RState
  | rs, [], g => (g, rs)
  | rs, v :: t, g =>
    if g = 1 then (g, rs)
    else
      let (coeff, rs) := getAbsCoeff rs v
      if coeff = 0 then cutGcd rs t g
      else
        let (rs, coeff) :=
          if rs.bound < coeff then
            (if rs.getCoeff v > 0 then { rs with coeffs := setc rs.coeffs v (rs.bound : Int) }
             else { rs with coeffs := setc rs.coeffs v (-(rs.bound : Int)) }, rs.bound)
          else (rs, coeff)
        cutGcd rs t (if g = 0 then coeff else Nat.gcd g coeff)

/-- `ba_solver::cut()`: bypass if some `|c| = 1`; otherwise compute the gcd
`g` of the (bound-clipped) nonzero absolute coefficients; if `g ≥ 2`,
normalize the active variables, divide every coefficient by `g` (C++ `int64`
division truncates toward zero) and replace the bound by
`(bound + g − 1) / g` (the `u32` sum is taken mod `2^32` as in the source). -/
def cut (rs : RState) : RState :=
  let bp := cutBypass rs rs.activeVars
  if bp.1 then bp.2
  else
    let gr := cutGcd bp.2 bp.2.activeVars 0
    if 2 ≤ gr.1 then
      let rs3 := normalizeActiveCoeffs gr.2
      let rs4 := { rs3 with
        coeffs := rs3.activeVars.foldl
          (fun m v => setc m v (Int.tdiv (getc m v) (gr.1 : Int))) rs3.coeffs }
      { rs4 with bound := ((rs4.bound + gr.1 - 1) % 2 ^ 32) / gr.1 }
    else gr.2

/-- The transformation claim C7 describes, written from the claim's words:
`g` is the gcd of the *unclipped* nonzero absolute coefficients; when `g ≥ 2`
all coefficients are divided by `g` and the bound becomes `⌈B/g⌉`; no change
when some coefficient has absolute value 1.  (Second definition, kept for
comparison with the source-derived `cut` above.) -/
def cutClaim (rs : RState) : RState :=
  if rs.activeVars.any (fun v => (getc rs.coeffs v).natAbs = 1) then rs
  else
    let g := rs.activeVars.foldl
      (fun g v => if getc rs.coeffs v = 0 then g
                  else if g = 0 then (getc rs.coeffs v).natAbs
                  else Nat.gcd g (getc rs.coeffs v).natAbs) 0
    if g ≥ 2 then
      { rs with
        coeffs := rs.activeVars.foldl
          (fun m v => setc m v (Int.tdiv (getc m v) (g : Int))) rs.coeffs
        bound := (rs.bound + g - 1) / g }
    else rs

-- ---------------------------------------------------------------
-- 0/1-model semantics of the resolvent inequality
-- ---------------------------------------------------------------

/-- Contribution of variable with signed coefficient `c` under assignment
value `x`: the inequality's term for `c` is `|c| · v` when `c > 0` and
`|c| · ¬v` when `c < 0`. -/
def termVal (c : Int) (x : Bool) : Int :=
  if c > 0 then (if x then c else 0)
  else if c < 0 then (if x then 0 else -c)
  else 0

/-- Left-hand side `Σ |cᵥ| · litᵥ` of the resolvent inequality under a 0/1
assignment `μ`, summed over the active variables. -/
def ineqVal (rs : RState) (μ : Nat → Bool) : Int :=
  (rs.activeVars.map (fun v => termVal (getc rs.coeffs v) (μ v))).sum

/-- The resolvent inequality `Σ |cᵥ| · litᵥ ≥ bound` holds under `μ`. -/
def ineqHolds (rs : RState) (μ : Nat → Bool) : Prop :=
  (rs.bound : Int) ≤ ineqVal rs μ

/-- The clipping `cut` applies to a coefficient whose absolute value exceeds
the bound: replace it by `±bound`, preserving the sign. -/
def clipv (b : Nat) (c : Int) : Int :=
  if b < c.natAbs then (if c > 0 then (b : Int) else -(b : Int)) else c

/-- Generic sum of term values over a variable list. -/
def sumTerms (m : List (Nat × Int)) (vs : List Nat) (μ : Nat → Bool) : Int :=
  (vs.map (fun v => termVal (getc m v) (μ v))).sum

-- ---------------------------------------------------------------
-- Propagation-side solver state and the watched-literal engines
-- ---------------------------------------------------------------

/-- Assignment-side solver state seen by the propagation engines: the
assignment (variable, value, level), the current decision level, the
literals assigned by `ba_solver::assign` (the propagation trail of the
current episode), and the recorded conflict literal of `set_conflict`. -/
structure PState where
  asg : List (Nat × Bool × Nat)
  dlevel : Nat
  prop : List Literal
  conflict : Option Literal
deriving DecidableEq, Repr

/-- `value(v)` for a variable. -/
def PState.valueV (st : PState) (v : Nat) : LBool :=
  match st.asg.find? (fun p => p.1 == v) with
  | some (_, b, _) => if b then .ltrue else .lfalse
  | none => (.lundef)

/-- `value(l)` for a literal. -/
def PState.value (st : PState) (l : Literal) : LBool :=
  match st.valueV l.var with
  | .ltrue => if l.sign then .lfalse else .ltrue
  | .lfalse => if l.sign then .ltrue else .lfalse
  | .lundef => (.lundef)

/-- `lvl(l)`: assignment level of the literal's variable (0 if unassigned). -/
def PState.lvl (st : PState) (l : Literal) : Nat :=
  match st.asg.find? (fun p => p.1 == l.var) with
  | some (_, _, lv) => lv
  | none => 0

/-- `inconsistent()`. -/
def PState.inconsistent (st : PState) : Bool := st.conflict.isSome

/-- `ba_solver::set_conflict(constraint&, literal)` — the justification
bookkeeping of the SAT core is outside the embedded fragment; the conflict
literal is recorded. -/
def PState.setConflict (st : PState) (l : Literal) : PState :=
  { st with conflict := some l }

/-- `ba_solver::assign(constraint&, literal)`: skip when already true,
conflict when false, otherwise enqueue the propagation (DRAT logging and
statistics are outside the embedded fragment). -/
def PState.assignLit (st : PState) (l : Literal) : PState :=
  if st.inconsistent then st
  else match st.value l with
    | .ltrue => st
    | .lfalse => st.setConflict l
    | .lundef =>
      { st with
        asg := (l.var, !l.sign, st.dlevel) :: st.asg
        prop := st.prop ++ [l] }

/-- `swap(i, j)` on a list (identity when an index is out of range). -/
def lswap (xs : List α) (i j : Nat) : List α :=
  match xs.get? i, xs.get? j with
  | some a, some b => (xs.set i b).set j a
  | _, _ => xs

/-- `c[i]` for a card body. -/
def nth (ls : List Literal) (i : Nat) : Literal := ls.getD i ⟨0, false⟩

/-- `p[i]` for a pb body. -/
def nthW (ls : List WLiteral) (i : Nat) : WLiteral := ls.getD i (0, ⟨0, false⟩)

/-- `ba_solver::card::is_watching(l)`: `l` occurs among the first
`min(k+1, size)` positions. -/
def Card.isWatching (c : Card) (l : Literal) : Bool :=
  (c.lits.take (min (c.k + 1) c.lits.length)).contains l

/-- `ba_solver::pb::is_watching(l)`: `l` occurs among the first `num_watch`
positions. -/
def PB.isWatching (p : PB) (l : Literal) : Bool :=
  ((p.wlits.take p.numWatch).map (·.2)).contains l

/-- `ba_solver::init_watch(card&, bool)`: negate on opposing polarity, move
the non-false literals to the head, then conflict / propagate-all / watch
the first `k+1` positions.  (The watch-registry append of `watch_literal` is
bookkeeping in the SAT core's lists; the watch state is expressed by
`Card.isWatching`.)  Returns the constraint, the state, and the C++ `bool`
result. -/
def initWatchCard (st : PState) (c : Card) (isTrue : Bool) : Card × PState × Bool :=
  let c := match c.lit with
    | some l => if l.sign == isTrue then c.negate else c
    | none => c
  let sz := c.lits.length
  let bound := c.k
  if bound = sz then
    (c, c.lits.foldl PState.assignLit st, false)
  else
    let cj := (List.range sz).foldl (fun (cj : Card × Nat) i =>
        if st.value (nth cj.1.lits i) ≠ .lfalse then
          (if cj.2 ≠ i then { cj.1 with lits := lswap cj.1.lits i cj.2 } else cj.1, cj.2 + 1)
        else cj) (c, 0)
    let c := cj.1
    let j := cj.2
    if j < bound then
      let c := (List.range' bound (sz - bound)).foldl (fun (c : Card) i =>
          if st.lvl (nth c.lits j) < st.lvl (nth c.lits i)
          then { c with lits := lswap c.lits i j } else c) c
      (c, st.setConflict (nth c.lits j), false)
    else if j = bound then
      (c, (List.range bound).foldl (fun st i => st.assignLit (nth c.lits i)) st, false)
    else
      (c, st, true)

/-- `ba_solver::add_assign(card&, literal)` — `alit` has just become false.
Locate it among the watched positions, try to swap in a non-false literal
from the tail, otherwise conflict or propagate the first `k` literals.
(The glue rescoring of learned constraints is a heuristic outside the
embedded fragment.) -/
def addAssignCard (st : PState) (c : Card) (alit : Literal) : LBool × Card × PState :=
  let sz := c.lits.length
  let bound := c.k
  if bound = sz then
    (.lfalse, c, st.setConflict alit)
  else
    let index := (((List.range (bound + 1)).find? (fun i => nth c.lits i = alit)).getD
      (bound + 1))
    if index = bound + 1 then
      (.lundef, c, st)
    else
      match (List.range' (bound + 1) (sz - (bound + 1))).find?
          (fun i => st.value (nth c.lits i) ≠ .lfalse) with
      | some i =>
        (.lundef, { c with lits := lswap c.lits index i }, st)
      | none =>
        if bound ≠ index ∧ st.value (nth c.lits bound) = .lfalse then
          (.lfalse, c, st.setConflict alit)
        else
          let c := if index ≠ bound then { c with lits := lswap c.lits index bound } else c
          let st := (List.range bound).foldl (fun st i => st.assignLit (nth c.lits i)) st
          (if st.inconsistent then .lfalse else .ltrue, c, st)

/-- `ba_solver::init_watch(pb&, bool)`: negate on opposing polarity, move
non-false terms to the head growing the watched prefix while `slack ≤ k`,
then conflict (false term of maximal level) or watch, with the tight-slack
propagation of every term. -/
def initWatchPB (st : PState) (p : PB) (isTrue : Bool) : PB × PState × Bool :=
  let p := { p with numWatch := 0 }
  let p := match p.lit with
    | some l => if l.sign == isTrue then p.negate else p
    | none => p
  let sz := p.wlits.length
  let bound := p.k
  let acc := (List.range sz).foldl
    (fun (acc : PB × Nat × Nat × Nat × Nat) i =>
      let (p, slack, slack1, nw, j) := acc
      if st.value (nthW p.wlits i).2 ≠ .lfalse then
        let p := if j ≠ i then { p with wlits := lswap p.wlits i j } else p
        if slack ≤ bound then (p, slack + (nthW p.wlits j).1, slack1, nw + 1, j + 1)
        else (p, slack, slack1 + (nthW p.wlits j).1, nw, j + 1)
      else acc)
    (p, 0, 0, 0, 0)
  let p := acc.1
  let slack := acc.2.1
  let slack1 := acc.2.2.1
  let nw := acc.2.2.2.1
  let j := acc.2.2.2.2
  if slack < bound then
    let lit := (List.range' (j + 1) (sz - (j + 1))).foldl
      (fun lit i => if st.lvl lit < st.lvl (nthW p.wlits i).2 then (nthW p.wlits i).2 else lit)
      (nthW p.wlits j).2
    (p, st.setConflict lit, false)
  else
    let p := { p with slack := slack, numWatch := nw }
    if slack + slack1 = bound then
      (p, (List.range j).foldl (fun st i => st.assignLit (nthW p.wlits i).2) st, true)
    else
      (p, st, true)

/-- `ba_solver::add_index(pb&, index, lit)`: collect an unassigned watched
index in `m_pb_undef` and raise `m_a_max`. -/
def addIndex (st : PState) (p : PB) (aMax : Nat) (pbUndef : List Nat)
    (index : Nat) (lit : Literal) : Nat × List Nat :=
  if st.value lit = .lundef then
    (if (nthW p.wlits index).1 > aMax then (nthW p.wlits index).1 else aMax, pbUndef ++ [index])
  else (aMax, pbUndef)

/-- The search for `alit` among the watched prefix of `add_assign(pb&,·)`,
running `add_index` on the literals scanned before it. -/
def findAlit (st : PState) (p : PB) (alit : Literal) :
    List Nat → Nat → List Nat → Option Nat × Nat × List Nat
  | [], aMax, pbU => (none, aMax, pbU)
  | i :: rest, aMax, pbU =>
    let lit := (nthW p.wlits i).2
    if lit = alit then (some i, aMax, pbU)
    else
      let (aMax, pbU) := addIndex st p aMax pbU i lit
      findAlit st p alit rest aMax pbU

/-- The `a_max` completion scan of `add_assign(pb&,·)`: keep running
`add_index` on the remaining watched literals while `m_a_max = 0`. -/
def aMaxScan (st : PState) (p : PB) :
    List Nat → Nat → List Nat → Nat × List Nat
  | [], aMax, pbU => (aMax, pbU)
  | i :: rest, aMax, pbU =>
    if aMax = 0 then
      let (aMax, pbU) := addIndex st p aMax pbU i (nthW p.wlits i).2
      aMaxScan st p rest aMax pbU
    else (aMax, pbU)

/-- The tail scan of `add_assign(pb&,·)`: while `slack < k + a_max`, pull
each non-false unwatched term into the watched prefix. -/
def pbPull (st : PState) (bound : Nat) :
    List Nat → PB × Nat × Nat × Nat × List Nat → PB × Nat × Nat × Nat × List Nat
  | [], acc => acc
  | j :: rest, (p, slack, numWatch, aMax, pbU) =>
    if slack < bound + aMax then
      let lit := (nthW p.wlits j).2
      if st.value lit ≠ .lfalse then
        let slack := slack + (nthW p.wlits j).1
        let p := { p with wlits := lswap p.wlits numWatch j }
        let (aMax, pbU) := addIndex st p aMax pbU numWatch (nthW p.wlits numWatch).2
        pbPull st bound rest (p, slack, numWatch + 1, aMax, pbU)
      else pbPull st bound rest (p, slack, numWatch, aMax, pbU)
    else (p, slack, numWatch, aMax, pbU)

/-- `ba_solver::add_assign(pb&, literal)` — the Chai–Kuhlmann step: locate
`alit` in the watched prefix, subtract its weight from the slack, pull in
non-false tail terms while `slack < k + a_max`, then either conflict
(restoring the slack) or swap `alit` out and propagate every unassigned
watched term whose weight would break the bound.  (The `exit(0)` debug path
for a missing watch is modelled by the `l_undef` return on its dead
`return`.) -/
def addAssignPB (st : PState) (p : PB) (alit : Literal) : LBool × PB × PState :=
  let sz := p.wlits.length
  let bound := p.k
  let numWatch := p.numWatch
  let slack := p.slack
  let f := findAlit st p alit (List.range numWatch) 0 []
  match f.1 with
  | none => (.lundef, p, st)
  | some index =>
    let am := aMaxScan st p (List.range' (index + 1) (numWatch - (index + 1))) f.2.1 f.2.2
    let aMax := am.1
    let pbUndef := am.2
    let val := (nthW p.wlits index).1
    let slack := slack - val
    let pulled := pbPull st bound (List.range' numWatch (sz - numWatch))
      (p, slack, numWatch, aMax, pbUndef)
    let p := pulled.1
    let slack := pulled.2.1
    let numWatch := pulled.2.2.1
    let aMax := pulled.2.2.2.1
    let pbUndef := pulled.2.2.2.2
    if slack < bound then
      let slack := slack + val
      let p := { p with slack := slack, numWatch := numWatch }
      (.lfalse, p, st.setConflict alit)
    else
      let numWatch := numWatch - 1
      let p := { p with slack := slack, numWatch := numWatch }
      let p := { p with wlits := lswap p.wlits numWatch index }
      let st :=
        if slack < bound + aMax then
          pbUndef.foldl (fun st index1 =>
            let index1 := if index1 = numWatch then index else index1
            let wl := nthW p.wlits index1
            if slack < bound + wl.1 then st.assignLit wl.2 else st) st
        else st
      (.lundef, p, st)

-- ---------------------------------------------------------------
-- Constraint dispatch and `propagate`
-- ---------------------------------------------------------------

/-- The card/pb fragment of the tagged constraint union (the xor family is
outside the embedded fragment; no claim concerns its propagation). -/
inductive Constraint where
  | card (c : Card)
  | pb (p : PB)
deriving DecidableEq, Repr

/-- The reifying literal of a constraint (`constraint::lit()`). -/
def Constraint.litOf : Constraint → Option Literal
  | .card c => c.lit
  | .pb p => p.lit

/-- `ba_solver::init_watch(constraint&, bool)` (returns false when already
inconsistent). -/
def initWatchC (st : PState) (c : Constraint) (isTrue : Bool) :
    Constraint × PState × Bool :=
  if st.inconsistent then (c, st, false)
  else match c with
    | .card c =>
      let r := initWatchCard st c isTrue
      (.card r.1, r.2.1, r.2.2)
    | .pb p =>
      let r := initWatchPB st p isTrue
      (.pb r.1, r.2.1, r.2.2)

/-- `ba_solver::add_assign(constraint&, literal)` dispatch. -/
def addAssignC (st : PState) (c : Constraint) (l : Literal) :
    LBool × Constraint × PState :=
  match c with
  | .card c =>
    let r := addAssignCard st c l
    (r.1, .card r.2.1, r.2.2)
  | .pb p =>
    let r := addAssignPB st p l
    (r.1, .pb r.2.1, r.2.2)

/-- `ba_solver::propagate(literal l, ext_constraint_idx idx)`: re-initialize
on the reifier's variable, keep watching when the reifier is not true,
otherwise dispatch to `add_assign` on `~l`; the returned `Bool` is the
keep-watching result. -/
def propagate (st : PState) (c : Constraint) (l : Literal) :
    Bool × Constraint × PState :=
  match c.litOf with
  | some clit =>
    if l.var = clit.var then
      let r := initWatchC st c (!l.sign)
      (true, r.1, r.2.1)
    else if st.value clit ≠ .ltrue then
      (true, c, st)
    else
      let r := addAssignC st c l.neg
      (decide (r.1 ≠ .lundef), r.2.1, r.2.2)
  | none =>
    let r := addAssignC st c l.neg
    (decide (r.1 ≠ .lundef), r.2.1, r.2.2)

-- ---------------------------------------------------------------
-- Constraint construction: `add_at_least`, `add_pb_ge`,
-- `pb::update_max_sum`
-- ---------------------------------------------------------------

/-- `ba_solver::pb::update_max_sum()`: clip every weight to `min(k, aᵢ)` and
accumulate `max_sum` in unsigned 32-bit arithmetic, throwing
`default_exception` when the addition wraps (`m_max_sum + w < m_max_sum`). -/
def updateMaxSumGo (k : Nat) : List WLiteral → Nat → Except String (List WLiteral × Nat)
  | [], maxSum => .ok ([], maxSum)
  | (w, l) :: t, maxSum =>
    let w := min k w
    let s := (maxSum + w) % 2 ^ 32
    if s < maxSum then .error "addition of pb coefficients overflows"
    else
      match updateMaxSumGo k t s with
      | .ok (ws, ms) => .ok ((w, l) :: ws, ms)
      | .error e => .error e

/-- The `pb` constructor: store the weighted literals and run
`update_max_sum` (which may throw). -/
def mkPB (lit : Option Literal) (wlits : List WLiteral) (k : Nat) : Except String PB :=
  match updateMaxSumGo k wlits 0 with
  | .ok (ws, ms) => .ok ⟨lit, ws, k, 0, 0, ms⟩
  | .error e => .error e

/-- `ba_solver::add_at_least(lit, lits, k, learned)`: with `k = 1` and no
reifier the clause is handed to the SAT core and no extension constraint is
created (`none`); otherwise a card is allocated.  (The learned flag selects
the storage vector, which is bookkeeping outside the embedded fragment.) -/
def addAtLeast (lit : Option Literal) (lits : List Literal) (k : Nat)
    (_learned : Bool) : Option Constraint :=
  if k = 1 ∧ lit = none then none
  else some (.card ⟨lit, lits, k⟩)

/-- `ba_solver::add_pb_ge(lit, wlits, k, learned)`: return null for `k = 0`
unreified, delegate to `add_at_least` when all weights are 1 or `k = 1`, and
otherwise allocate a pb — whose constructor may throw on `u32` overflow of
the clipped coefficient sum. -/
def addPbGe (lit : Option Literal) (wlits : List WLiteral) (k : Nat)
    (learned : Bool) : Except String (Option Constraint) :=
  let units := wlits.all (fun wl => wl.1 == 1)
  if k = 0 ∧ lit = none then .ok none
  else if units ∨ k = 1 then .ok (addAtLeast lit (wlits.map (·.2)) k learned)
  else (mkPB lit wlits k).map (fun p => some (.pb p))

-- ---------------------------------------------------------------
-- `ba_solver::active2card`
-- ---------------------------------------------------------------

/-- `std::sort(m_wlits.begin(), m_wlits.end(), compare_wlit())` —
`compare_wlit` orders by strictly greater weight; the `std::sort` contract
is a weight-descending permutation, realized by insertion sort. -/
def sortDesc (ls : List WLiteral) : List WLiteral :=
  List.insertionSort (fun a b => b.1 ≤ a.1) ls

/-- The prefix-selection loop of `active2card`: count terms until the
running sum reaches the bound, tracking `sum` and the previous sum `sum0`. -/
def selectKGo (bound : Nat) : List WLiteral → Nat × Nat × Nat → Nat × Nat × Nat
  | [], acc => acc
  | wl :: t, (k, sum, sum0) =>
    if sum ≥ bound then (k, sum, sum0)
    else selectKGo bound t (k + 1, sum + wl.1, sum)

/-- The tail-trimming loop of `active2card` (`while (!m_wlits.empty())
{ wl = back; if (wl.first + sum0 >= bound) break; pop_back; sum0 += } `),
acting on the reversed list so the popped back is the head. -/
def trimTailRev (bound : Nat) : List WLiteral → Nat → List WLiteral × Nat
  | [], sum0 => ([], sum0)
  | wl :: t, sum0 =>
    if wl.1 + sum0 ≥ bound then (wl :: t, sum0)
    else trimTailRev bound t (sum0 + wl.1)

/-- One step of the `m_wlits` construction loop of `active2card`: push
`(get_abs_coeff(v), literal(v, coeff < 0))`, threading the possible
overflow latches of `get_int_coeff` / `get_abs_coeff`. -/
def buildStep (acc : List WLiteral × RState) (v : Nat) : List WLiteral × RState :=
  let ci := getIntCoeff acc.2 v
  let ai := getAbsCoeff ci.2 v
  (acc.1 ++ [(ai.1, ⟨v, decide (ci.1 < 0)⟩)], ai.2)

/-- The `m_wlits` construction loop of `active2card`. -/
def buildWlits (rs : RState) : List WLiteral × RState :=
  rs.activeVars.foldl buildStep ([], rs)

/-- `ba_solver::active2card()`: normalize, build and sort the weighted
literals, select the threshold `k` as the number of sorted terms needed to
reach the bound, return null when `k = 1`, trim the tail whose weights
cannot reach the bound, and — unless `overflow` is latched or the reduction
is not asserting (`slack ≥ k`, where the pb fallback of the source sits
behind `#if 0`) — emit the learned cardinality constraint via
`add_at_least`.  (The `max_level` / `num_max_level` locals of the source are
computed but never used; the glue scoring of the created constraint is a
heuristic outside the embedded fragment.) -/
def active2card (st : PState) (rs : RState) : Option Constraint × RState :=
  let rs := normalizeActiveCoeffs rs
  let bw := buildWlits rs
  let rs := bw.2
  let wlits := sortDesc bw.1
  let sel := selectKGo rs.bound wlits (0, 0, 0)
  let k := sel.1
  let sum0 := sel.2.2
  if k = 1 then (none, rs)
  else
    let tr := trimTailRev rs.bound wlits.reverse sum0
    let wlits := tr.1.reverse
    let slack := (wlits.filter (fun wl => !(st.value wl.2 == .lfalse))).length
    if rs.overflow then (none, rs)
    else if slack ≥ k then (none, rs)
    else (addAtLeast none (wlits.map (·.2)) k true, rs)

/-- Sum of the weights of a weighted-literal list. -/
def sumW (ws : List WLiteral) : Nat := (ws.map (·.1)).sum

/-- The sorted weighted literals `active2card` works on (for specification;
under the no-latch hypotheses `buildWlits` leaves the state unchanged). -/
def a2cSorted (rs : RState) : List WLiteral :=
  sortDesc (buildWlits (normalizeActiveCoeffs rs)).1

/-- The cardinality threshold `active2card` selects. -/
def a2cK (rs : RState) : Nat :=
  (selectKGo (normalizeActiveCoeffs rs).bound (a2cSorted rs) (0, 0, 0)).1

/-- The trimmed weighted-literal list `active2card` keeps. -/
def a2cTrimmed (rs : RState) : List WLiteral :=
  (trimTailRev (normalizeActiveCoeffs rs).bound (a2cSorted rs).reverse
    (selectKGo (normalizeActiveCoeffs rs).bound (a2cSorted rs) (0, 0, 0)).2.2).1.reverse

/-- The slack `active2card` computes over the trimmed list. -/
def a2cSlack (st : PState) (rs : RState) : Nat :=
  ((a2cTrimmed rs).filter (fun wl => !(st.value wl.2 == .lfalse))).length

-- ---------------------------------------------------------------
-- Conflict resolution: `ba_solver::resolve_conflict` and its helpers
-- ---------------------------------------------------------------

/-- SAT-core justifications as dispatched by `resolve_conflict` (the clause
contents are inlined in place of the allocator offset; the xor family is
outside the embedded fragment). -/
inductive Justification where
  | jnone
  | binary (l : Literal)
  | ternary (l1 l2 : Literal)
  | clause (lits : List Literal)
  | ext (idx : Nat)
deriving DecidableEq, Repr

/-- The solver state visible to `resolve_conflict`: the trail, per-variable
justifications, the mark set, the assignment view, the conflict
(`m_not_l` / `m_conflict`), the propagation counter, the constraint store,
and the outputs (learned constraints added by `active2card`, the final
`s().m_lemma`, and whether `s().set_conflict(justification())` was called in
`create_asserting_lemma`). -/
structure RSolver where
  trail : List Literal
  just : List (Nat × Justification)
  marks : List Nat
  ps : PState
  notL : Option Literal
  conflictJs : Justification
  numPropSincePop : Nat
  constraints : List Constraint
  learned : List Constraint
  outLemma : List (Option Literal)
  coreConflict : Bool
deriving DecidableEq, Repr

/-- `s().m_justification[v]`. -/
def justOf (sv : RSolver) (v : Nat) : Justification :=
  ((sv.just.find? (fun p => p.1 == v)).map (·.2)).getD .jnone

/-- `ba_solver::reset_coeffs()`: zero the coefficients of the active
variables and clear the active list. -/
def resetCoeffs (rs : RState) : RState :=
  { rs with
    coeffs := rs.activeVars.foldl (fun m v => setc m v 0) rs.coeffs
    activeVars := [] }

/-- `ba_solver::process_antecedent(l, offset)`: mark an unmarked variable
assigned at the conflict level above the root, then `inc_coeff`. -/
def processAntecedent (sv : RSolver) (rs : RState) (numMarks conflictLvl : Nat)
    (l : Literal) (offset : Nat) : RSolver × RState × Nat :=
  let v := l.var
  let level := sv.ps.lvl l
  let mk :=
    if 0 < level ∧ ¬ sv.marks.contains v ∧ level = conflictLvl then
      ({ sv with marks := v :: sv.marks }, numMarks + 1)
    else (sv, numMarks)
  (mk.1, incCoeff rs l offset, mk.2)

/-- `ba_solver::process_card(c, offset)`: antecedents for the tail
`[k, size)`, coefficients for the head `[0, k)`, and the reifier (negated)
with multiplier `offset · k`, checked against `UINT_MAX`. -/
def processCard (sv : RSolver) (rs : RState) (numMarks conflictLvl : Nat)
    (c : Card) (offset : Nat) : RSolver × RState × Nat :=
  let acc := (c.lits.drop c.k).foldl
    (fun (a : RSolver × RState × Nat) l =>
      processAntecedent a.1 a.2.1 a.2.2 conflictLvl l offset) (sv, rs, numMarks)
  let acc := (c.lits.take c.k).foldl
    (fun (a : RSolver × RState × Nat) l => (a.1, incCoeff a.2.1 l offset, a.2.2)) acc
  match c.lit with
  | some lt =>
    let offset1 := offset * c.k
    if offset1 > 2 ^ 32 - 1 then (acc.1, { acc.2.1 with overflow := true }, acc.2.2)
    else processAntecedent acc.1 acc.2.1 acc.2.2 conflictLvl lt.neg offset1
  | none => acc

/-- `ba_solver::get_antecedents(l, pb const&, r)`: a sufficient set of false
literals of `p` implying `l` — the conflict branch (value(l) = false)
recomputes the slack from scratch; the propagation branch subtracts the
coefficient of `l` from the cached slack and scans the unwatched tail. -/
def pbAntecedents (st : PState) (p : PB) (l : Literal) : List Literal :=
  let r0 : List Literal := match p.lit with | some lt => [lt] | none => []
  let k := p.k
  if st.value l = .lfalse then
    let slack := ((p.wlits.filter (fun wl => !(st.value wl.2 == .lfalse))).map (·.1)).sum
    (p.wlits.foldl (fun (acc : Nat × List Literal) wl =>
      if wl.2 ≠ l ∧ st.value wl.2 = .lfalse then
        if acc.1 + wl.1 < k then (acc.1 + wl.1, acc.2)
        else (acc.1, acc.2 ++ [wl.2.neg])
      else acc) (slack, r0)).2
  else
    let i0 := (List.range p.wlits.length).find? (fun i => (nthW p.wlits i).2 = l)
    let i := i0.getD p.wlits.length
    let coeff := match i0 with | some i => (nthW p.wlits i).1 | none => 0
    let j := i + 1
    let j := if j < p.numWatch then p.numWatch else j
    let slack := p.slack - coeff
    let j := max (j + 1) p.numWatch
    ((List.range' j (p.wlits.length - j)).foldl (fun (acc : Nat × List Literal) idx =>
      let wl := nthW p.wlits idx
      if acc.1 + wl.1 < k then (acc.1 + wl.1, acc.2)
      else (acc.1, acc.2 ++ [wl.2.neg])) (slack, r0)).2

/-- The justification dispatch of the main resolution loop (the
`switch (js.get_kind())` of `resolve_conflict`; the `consequent = none`
sub-cases guard the `null_literal` sentinel, which the source asserts
against). -/
def processJust (sv : RSolver) (rs : RState) (numMarks conflictLvl : Nat)
    (consequent : Option Literal) (js : Justification) (offset : Nat) :
    RSolver × RState × Nat :=
  match js with
  | .jnone => (sv, incBound rs (offset : Int), numMarks)
  | .binary l =>
    let rs := incBound rs (offset : Int)
    let rs := match consequent with | some co => incCoeff rs co offset | none => rs
    processAntecedent sv rs numMarks conflictLvl l offset
  | .ternary l1 l2 =>
    let rs := incBound rs (offset : Int)
    let rs := match consequent with | some co => incCoeff rs co offset | none => rs
    let a := processAntecedent sv rs numMarks conflictLvl l1 offset
    processAntecedent a.1 a.2.1 a.2.2 conflictLvl l2 offset
  | .clause cl =>
    let rs := incBound rs (offset : Int)
    match consequent with
    | some co =>
      let rs := incCoeff rs co offset
      if cl.get? 0 = some co then
        (cl.drop 1).foldl (fun (a : RSolver × RState × Nat) l =>
          processAntecedent a.1 a.2.1 a.2.2 conflictLvl l offset) (sv, rs, numMarks)
      else
        let a := match cl.get? 0 with
          | some l0 => processAntecedent sv rs numMarks conflictLvl l0 offset
          | none => (sv, rs, numMarks)
        (cl.drop 2).foldl (fun (a : RSolver × RState × Nat) l =>
          processAntecedent a.1 a.2.1 a.2.2 conflictLvl l offset) a
    | none =>
      cl.foldl (fun (a : RSolver × RState × Nat) l =>
        processAntecedent a.1 a.2.1 a.2.2 conflictLvl l offset) (sv, rs, numMarks)
  | .ext i =>
    match sv.constraints.get? i with
    | some (.card c) =>
      let rs := incBound rs ((offset : Int) * (c.k : Int))
      processCard sv rs numMarks conflictLvl c offset
    | some (.pb p) =>
      let rs := incBound rs (offset : Int)
      match consequent with
      | some co =>
        let rs := incCoeff rs co offset
        let ants := pbAntecedents sv.ps p co
        ants.foldl (fun (a : RSolver × RState × Nat) l =>
          processAntecedent a.1 a.2.1 a.2.2 conflictLvl l.neg offset) (sv, rs, numMarks)
      | none => (sv, rs, numMarks)
    | none => (sv, rs, numMarks)

/-- The `while (true)` scan of `process_next_resolvent`: the position of the
highest marked trail variable at or below `idx`, or `none` when the scan
reaches the bottom (the source then jumps to `bail_out`). -/
def findMarked (sv : RSolver) : Nat → Option Nat
  | 0 => if sv.marks.contains (nth sv.trail 0).var then some 0 else none
  | i + 1 =>
    if sv.marks.contains (nth sv.trail (i + 1)).var then some (i + 1)
    else findMarked sv i

/-- Result of the main resolution loop: either a jump to `bail_out` (with
the trail index the cleanup starts from) or a normal exit with
`m_num_marks = 0`. -/
inductive LoopRes where
  | bail (sv : RSolver) (rs : RState) (numMarks : Nat) (idx : Nat)
  | done (sv : RSolver) (rs : RState) (numMarks : Nat) (idx : Nat)
deriving DecidableEq, Repr

/-- The justification-processing half of one resolution-loop iteration:
skipped entirely on a zero offset, otherwise the `switch` dispatch followed
by `cut()`. -/
def resolveStep (sv : RSolver) (rs : RState) (numMarks conflictLvl : Nat)
    (consequent : Option Literal) (js : Justification) (offset : Nat) :
    RSolver × RState × Nat :=
  if offset = 0 then (sv, rs, numMarks)
  else
    ((processJust sv rs numMarks conflictLvl consequent js offset).1,
     cut (processJust sv rs numMarks conflictLvl consequent js offset).2.1,
     (processJust sv rs numMarks conflictLvl consequent js offset).2.2)

/-- `s().reset_mark(v)` for the trail variable at position `pos`. -/
def unmarkAt (sv : RSolver) (pos : Nat) : RSolver :=
  { sv with marks := sv.marks.erase (nth sv.trail pos).var }

/-- Loading the next resolvent's coefficient: `offset = get_abs_coeff(v)`
followed by the clip to `m_bound` (sign preserved, ba_solver.cpp:1237-1242).
Returns the updated scratchpad and the offset. -/
def clipValue (rs : RState) (v : Nat) : Int :=
  if rs.getCoeff v < 0 then -(rs.bound : Int) else (rs.bound : Int)

def clipOffset (rs : RState) (v : Nat) : RState × Nat :=
  if (getAbsCoeff rs v).1 > (getAbsCoeff rs v).2.bound then
    ({ (getAbsCoeff rs v).2 with
        coeffs := setc (getAbsCoeff rs v).2.coeffs v (clipValue (getAbsCoeff rs v).2 v) },
     (getAbsCoeff rs v).2.bound)
  else ((getAbsCoeff rs v).2, (getAbsCoeff rs v).1)

/-- The `do { … } while (m_num_marks > 0)` loop of `resolve_conflict`:
check overflow and the `offset > 2^12` guard, process the current
justification and `cut`, then find, unmark and load the next marked
resolvent, clipping its coefficient to the bound.  The recursion is
fuelled; the trail index strictly decreases per iteration, so
`trail.length + 2` fuel suffices (the `pos = 0` re-entry, where the
source's unsigned `--idx` would wrap, is modelled as the bail it leads
to). -/
def resolveLoop : Nat → RSolver → RState → Nat → Nat → Option Literal → Justification →
    Nat → Nat → LoopRes
  | 0, sv, rs, numMarks, _, _, _, _, idx => .bail sv rs numMarks idx
  | fuel + 1, sv, rs, numMarks, conflictLvl, consequent, js, offset, idx =>
    if rs.overflow ∨ offset > 4096 then .bail sv rs numMarks idx
    else
      match findMarked (resolveStep sv rs numMarks conflictLvl consequent js offset).1 idx with
      | none =>
        .bail (resolveStep sv rs numMarks conflictLvl consequent js offset).1
          (resolveStep sv rs numMarks conflictLvl consequent js offset).2.1
          (resolveStep sv rs numMarks conflictLvl consequent js offset).2.2 0
      | some pos =>
        if (resolveStep sv rs numMarks conflictLvl consequent js offset).2.2 - 1 > 0 then
          if pos = 0 then
            .bail (unmarkAt (resolveStep sv rs numMarks conflictLvl consequent js offset).1 pos)
              (clipOffset (resolveStep sv rs numMarks conflictLvl consequent js offset).2.1
                (nth (resolveStep sv rs numMarks conflictLvl consequent js offset).1.trail pos).var).1
              ((resolveStep sv rs numMarks conflictLvl consequent js offset).2.2 - 1) 0
          else
            resolveLoop fuel
              (unmarkAt (resolveStep sv rs numMarks conflictLvl consequent js offset).1 pos)
              (clipOffset (resolveStep sv rs numMarks conflictLvl consequent js offset).2.1
                (nth (resolveStep sv rs numMarks conflictLvl consequent js offset).1.trail pos).var).1
              ((resolveStep sv rs numMarks conflictLvl consequent js offset).2.2 - 1)
              conflictLvl
              (some (nth (resolveStep sv rs numMarks conflictLvl consequent js offset).1.trail pos))
              (justOf (resolveStep sv rs numMarks conflictLvl consequent js offset).1
                (nth (resolveStep sv rs numMarks conflictLvl consequent js offset).1.trail pos).var)
              (clipOffset (resolveStep sv rs numMarks conflictLvl consequent js offset).2.1
                (nth (resolveStep sv rs numMarks conflictLvl consequent js offset).1.trail pos).var).2
              (pos - 1)
        else
          .done (unmarkAt (resolveStep sv rs numMarks conflictLvl consequent js offset).1 pos)
            (clipOffset (resolveStep sv rs numMarks conflictLvl consequent js offset).2.1
              (nth (resolveStep sv rs numMarks conflictLvl consequent js offset).1.trail pos).var).1
            ((resolveStep sv rs numMarks conflictLvl consequent js offset).2.2 - 1) (pos - 1)

/-- The `bail_out` mark-cleanup loop: walk the trail downwards from `idx`
unmarking while `m_num_marks > 0`.  (The `_debug_conflict` re-entry of the
source at the bottom of the trail is the missing-mark anomaly, outside the
embedded fragment.) -/
def bailClean (sv : RSolver) (numMarks : Nat) : Nat → RSolver × Nat
  | 0 =>
    if numMarks = 0 then (sv, numMarks)
    else
      if sv.marks.contains (nth sv.trail 0).var then
        ({ sv with marks := sv.marks.erase (nth sv.trail 0).var }, numMarks - 1)
      else (sv, numMarks)
  | idx + 1 =>
    if numMarks = 0 then (sv, numMarks)
    else
      if sv.marks.contains (nth sv.trail (idx + 1)).var then
        bailClean { sv with marks := sv.marks.erase (nth sv.trail (idx + 1)).var }
          (numMarks - 1) idx
      else bailClean sv numMarks idx

/-- The initial-slack computation of `create_asserting_lemma`
(`slack = −bound + Σ get_abs_coeff(v)`, with possible latches). -/
def calSlack : RState → List Nat → Int → Int × RState
  | rs, [], s => (s, rs)
  | rs, v :: t, s =>
    let ga := getAbsCoeff rs v
    calSlack ga.2 t (s + (ga.1 : Int))

/-- The classification scan of `create_asserting_lemma`: while the slack is
nonnegative, append the false-side literals, keeping the best asserting
literal (maximal coefficient) of the conflict level in slot 0.  State:
`(rs, slack, m_lemma[0], asserting_coeff, m_lemma[1..])`. -/
def calScan (sv : RSolver) (conflictLvl : Nat) :
    List Nat → RState × Int × Option Literal × Int × List Literal →
    RState × Int × Option Literal × Int × List Literal
  | [], acc => acc
  | v :: t, (rs, slack, lemma0, acoeff, rest) =>
    if slack < 0 then (rs, slack, lemma0, acoeff, rest)
    else
      let coeff := rs.getCoeff v
      let val := sv.ps.valueV v
      let isTrue := val = .ltrue
      if coeff ≠ 0 ∧ val ≠ .lundef ∧ ((coeff < 0) ↔ isTrue) then
        let lit : Literal := ⟨v, !(decide isTrue)⟩
        let ga := getAbsCoeff rs v
        let rs := ga.2
        if sv.ps.lvl lit = conflictLvl then
          match lemma0 with
          | none => calScan sv conflictLvl t (rs, slack - |coeff|, some lit.neg, |coeff|, rest)
          | some _ =>
            if acoeff < |coeff| then
              calScan sv conflictLvl t
                (rs, slack - (|coeff| - acoeff), some lit.neg, |coeff|, rest)
            else calScan sv conflictLvl t (rs, slack, lemma0, acoeff, rest)
        else calScan sv conflictLvl t (rs, slack - |coeff|, lemma0, acoeff, rest ++ [lit.neg])
      else calScan sv conflictLvl t (rs, slack, lemma0, acoeff, rest)

/-- `ba_solver::create_asserting_lemma()` with its
`adjust_conflict_level` retry loop (fuelled: each retry recomputes the
conflict level as the maximum level of the collected literals; fuel
exhaustion reports failure).  Returns success, the solver (recording the
`s().set_conflict(justification())` of the empty-lemma corner), the
scratchpad, the final conflict level, and `m_lemma`. -/
def createAssertingLemma (sv : RSolver) : RState → Nat → Nat →
    Bool × RSolver × RState × Nat × List (Option Literal)
  | rs, conflictLvl, 0 => (false, sv, rs, conflictLvl, [])
  | rs, conflictLvl, fuel + 1 =>
    let cs := calSlack rs rs.activeVars (-(rs.bound : Int))
    let scan := calScan sv conflictLvl rs.activeVars (cs.2, cs.1, none, 0, [])
    let rs := scan.1
    let slack := scan.2.1
    let lemma0 := scan.2.2.1
    let rest := scan.2.2.2.2
    if 0 ≤ slack then (false, sv, rs, conflictLvl, [])
    else
      match lemma0 with
      | some l0 => (true, sv, rs, conflictLvl, some l0 :: rest.map some)
      | none =>
        if rest.isEmpty then
          (false, { sv with coreConflict := true }, rs, conflictLvl, [none])
        else
          let newLvl := rest.foldl (fun m l => max m (sv.ps.lvl l)) 0
          createAssertingLemma sv rs newLvl fuel

/-- The literals a justification mentions (used for the conflict level). -/
def justLitsView (sv : RSolver) : Justification → List Literal
  | .jnone => []
  | .binary l => [l]
  | .ternary l1 l2 => [l1, l2]
  | .clause cl => cl
  | .ext i =>
    match sv.constraints.get? i with
    | some (.card c) => c.lits ++ (match c.lit with | some l => [l] | none => [])
    | some (.pb p) => p.wlits.map (·.2) ++ (match p.lit with | some l => [l] | none => [])
    | none => []

/-- Modelled from the spec: `s().get_max_lvl(consequent, js)` lives in the
SAT core (`sat_solver.cpp`, not part of this repository snapshot); the spec
describes the conflict level as the decision level of the conflict — the
maximum assignment level among the consequent and the literals of the
conflicting justification. -/
def getMaxLvl (sv : RSolver) (consequent : Option Literal) (js : Justification) : Nat :=
  ((consequent.toList ++ justLitsView sv js).map (fun l => sv.ps.lvl l)).foldl max 0

/-- The `bail_out` exit of `resolve_conflict`: record the overflow flag
(the ghost "latched at some point" observation), reset it, clean the marks
walking the trail down from `idx`, and report `l_undef`. -/
def rcBail (sv : RSolver) (rs : RState) (numMarks idx : Nat) :
    LBool × RSolver × RState × Bool :=
  let ov := rs.overflow
  let rs := { rs with overflow := false }
  (.lundef, (bailClean sv numMarks idx).1, rs, ov)

/-- The tail of `resolve_conflict` after the resolution loop ends normally:
`normalize_active_coeffs`, `create_asserting_lemma` (failure jumps to
`bail_out`), `active2card`, the final overflow check (jump to `bail_out`),
and on success the installation of `s().m_lemma` with its tail variables
marked. -/
def rcDone (sv : RSolver) (rs : RState) (numMarks conflictLvl idx : Nat) :
    LBool × RSolver × RState × Bool :=
  let rs := normalizeActiveCoeffs rs
  let cal := createAssertingLemma sv rs conflictLvl (sv.trail.length + conflictLvl + 2)
  let sv := cal.2.1
  let rs := cal.2.2.1
  if cal.1 = false then rcBail sv rs numMarks idx
  else
    let a2c := active2card sv.ps rs
    let rs := a2c.2
    let sv := match a2c.1 with
      | some c => { sv with learned := sv.learned ++ [c] }
      | none => sv
    if rs.overflow then rcBail sv rs numMarks idx
    else
      let lem := cal.2.2.2.2
      let sv := { sv with
        outLemma := lem
        marks := (lem.drop 1).foldl (fun ms ol =>
          match ol with
          | some l => if ms.contains l.var then ms else l.var :: ms
          | none => ms) sv.marks }
      (.ltrue, sv, rs, false)

/-- The scratchpad reset at the top of `resolve_conflict`:
`m_overflow = false; reset_coeffs(); m_bound = 0`. -/
def rcEntryRs (rs : RState) : RState :=
  { resetCoeffs { rs with overflow := false } with bound := 0 }

/-- The initial consequent processing of `resolve_conflict`: when `m_not_l`
is set, negate it and `process_antecedent(consequent, 1)`.  Returns the
solver, the scratchpad, `m_num_marks` and the running consequent. -/
def rcStart (sv : RSolver) (rs : RState) (conflictLvl : Nat) :
    RSolver × RState × Nat × Option Literal :=
  match sv.notL with
  | some co =>
    ((processAntecedent sv rs 0 conflictLvl co.neg 1).1,
     (processAntecedent sv rs 0 conflictLvl co.neg 1).2.1,
     (processAntecedent sv rs 0 conflictLvl co.neg 1).2.2, some co.neg)
  | none => (sv, rs, 0, none)

/-- `ba_solver::resolve_conflict()`.  Returns the `lbool` result, the solver
state, the scratchpad, and the overflow value observed at the exit decision
(the flag is never cleared between the entry reset and the exit, so this is
exactly "overflow was latched at some point during the run"; `bail_out`
then resets the stored flag, as in the source). -/
def resolveConflict (sv : RSolver) (rs : RState) : LBool × RSolver × RState × Bool :=
  if sv.numPropSincePop = 0 then (.lundef, sv, rs, false)
  else
    match resolveLoop
        ((rcStart sv (rcEntryRs rs) (getMaxLvl sv sv.notL sv.conflictJs)).1.trail.length + 2)
        (rcStart sv (rcEntryRs rs) (getMaxLvl sv sv.notL sv.conflictJs)).1
        (rcStart sv (rcEntryRs rs) (getMaxLvl sv sv.notL sv.conflictJs)).2.1
        (rcStart sv (rcEntryRs rs) (getMaxLvl sv sv.notL sv.conflictJs)).2.2.1
        (getMaxLvl sv sv.notL sv.conflictJs)
        (rcStart sv (rcEntryRs rs) (getMaxLvl sv sv.notL sv.conflictJs)).2.2.2
        sv.conflictJs 1
        ((rcStart sv (rcEntryRs rs) (getMaxLvl sv sv.notL sv.conflictJs)).1.trail.length - 1) with
    | .bail sv1 rs1 nm1 idx1 => rcBail sv1 rs1 nm1 idx1
    | .done sv1 rs1 nm1 idx1 => rcDone sv1 rs1 nm1 (getMaxLvl sv sv.notL sv.conflictJs) idx1

/-- Two solver states that agree on everything except the mark set. -/
def sameButMarks (a b : RSolver) : Prop :=
  a.trail = b.trail ∧ a.just = b.just ∧ a.ps = b.ps ∧ a.constraints = b.constraints ∧
  a.learned = b.learned ∧ a.outLemma = b.outLemma ∧ a.notL = b.notL ∧
  a.conflictJs = b.conflictJs ∧ a.numPropSincePop = b.numPropSincePop ∧
  a.coreConflict = b.coreConflict

/-- A resolution step from `(sv, numMarks)` to `(sv', numMarks')`: only the
marks change, new marks have variables in `vs`, distinctness of the marks is
preserved, and `m_num_marks` stays in sync with the mark-set size. -/
def StepOK (vs : List Nat) (sv : RSolver) (numMarks : Nat)
    (sv' : RSolver) (numMarks' : Nat) : Prop :=
  sameButMarks sv' sv ∧
  (∀ v ∈ sv'.marks, v ∈ sv.marks ∨ v ∈ vs) ∧
  (sv.marks.Nodup → sv'.marks.Nodup) ∧
  (numMarks = sv.marks.length → numMarks' = sv'.marks.length)

/-- The variables a justification's processing can mark. -/
def justVars (sv : RSolver) (js : Justification) : List Nat :=
  (justLitsView sv js).map (fun l => l.var)

/-- Well-formedness of the solver state at conflict time: antecedent
variables of a trail literal's justification lie strictly below it on the
trail, and the conflicting justification and `m_not_l` mention only trail
variables. -/
def WfSolver (sv : RSolver) : Prop :=
  (∀ i, i < sv.trail.length →
    ∀ v ∈ justVars sv (justOf sv (nth sv.trail i).var),
      ∃ p, p < i ∧ (nth sv.trail p).var = v) ∧
  (∀ v ∈ justVars sv sv.conflictJs,
      ∃ p, p < sv.trail.length ∧ (nth sv.trail p).var = v) ∧
  (∀ l : Literal, sv.notL = some l →
      ∃ p, p < sv.trail.length ∧ (nth sv.trail p).var = l.var)

/-- A solver state stopped at the guard: no extension propagation since the
last pop. -/
def svGuard : RSolver :=
  { trail := [⟨1, false⟩], just := [], marks := [4],
    ps := ⟨[], 0, [], none⟩, notL := none, conflictJs := .jnone,
    numPropSincePop := 0, constraints := [], learned := [],
    outLemma := [], coreConflict := false }

/-- A scratchpad with leftovers from an earlier aborted resolution. -/
def rsGuard : RState :=
  { coeffs := [(2, 7)], activeVars := [2], bound := 5, overflow := true }

/-- A conflict state whose scratchpad holds a stale out-of-`i32`
coefficient for variable 7, so the first `inc_coeff` of the resolution
latches the overflow flag. -/
def svOvfl : RSolver :=
  { trail := [⟨7, true⟩], just := [], marks := [],
    ps := ⟨[], 0, [], none⟩, notL := none,
    conflictJs := .clause [⟨7, true⟩], numPropSincePop := 1,
    constraints := [], learned := [], outLemma := [], coreConflict := false }

/-- The stale scratchpad accompanying `svOvfl`. -/
def rsOvfl : RState :=
  { coeffs := [(7, 2 ^ 33)], activeVars := [], bound := 0, overflow := false }

end BA

namespace BA

@[simp] theorem Literal.neg_neg (l : Literal) : l.neg.neg = l := by
  cases l with
  | mk v s => simp [Literal.neg]

@[simp] theorem Literal.neg_var (l : Literal) : l.neg.var = l.var := rfl

theorem card_negate_lits_len (c : Card) : (Card.negate c).lits.length = c.lits.length := by
  simp [Card.negate]

theorem option_map_neg_neg (o : Option Literal) :
    (o.map Literal.neg).map Literal.neg = o := by
  cases o with
  | none => rfl
  | some l => simp

theorem list_map_neg_neg (ls : List Literal) :
    (ls.map Literal.neg).map Literal.neg = ls := by
  induction ls with
  | nil => rfl
  | cons a t ih => simp [ih]

theorem wlist_map_neg_neg (ls : List WLiteral) :
    ((ls.map (fun wl => (wl.1, wl.2.neg))).map (fun wl => (wl.1, wl.2.neg))) = ls := by
  induction ls with
  | nil => rfl
  | cons a t ih => simp [ih]

theorem wlist_map_neg_weights (ls : List WLiteral) :
    ((ls.map (fun wl => (wl.1, wl.2.neg))).map (·.1)).sum = (ls.map (·.1)).sum := by
  induction ls with
  | nil => rfl
  | cons a t ih =>
    simp only [List.map_cons, List.sum_cons] at *
    omega

/-- C8 helper: card `negate` is an involution under the card invariant. -/
theorem card_negate_negate (c : Card) (h1 : 1 ≤ c.k) (h2 : c.k ≤ c.lits.length) :
    (Card.negate c).negate = c := by
  cases c with
  | mk lit lits k =>
    simp only [Card.negate, List.length_map] at *
    rw [option_map_neg_neg, list_map_neg_neg]
    congr 1
    omega

/-- C8 helper: pb `negate` is an involution under the pb invariant `k ≤ Σ aᵢ`. -/
theorem pb_negate_negate (p : PB) (h1 : 1 ≤ p.k)
    (h2 : p.k ≤ (p.wlits.map (·.1)).sum) :
    (PB.negate p).negate = p := by
  cases p with
  | mk lit wlits k slack nw ms =>
    simp only [PB.negate] at *
    rw [option_map_neg_neg, wlist_map_neg_neg, wlist_map_neg_weights]
    congr 1
    omega

theorem termVal_nonneg (c : Int) (x : Bool) : 0 ≤ termVal c x := by
  unfold termVal
  split <;> split <;> omega

theorem termVal_zero (x : Bool) : termVal 0 x = 0 := by
  unfold termVal
  norm_num

theorem ineqVal_nonneg (rs : RState) (μ : Nat → Bool) : 0 ≤ ineqVal rs μ := by
  unfold ineqVal
  induction rs.activeVars with
  | nil => simp
  | cons v t ih =>
    simp only [List.map_cons, List.sum_cons]
    have := termVal_nonneg (getc rs.coeffs v) (μ v)
    omega

theorem sumTerms_nonneg (m : List (Nat × Int)) (vs : List Nat) (μ : Nat → Bool) :
    0 ≤ sumTerms m vs μ := by
  unfold sumTerms
  induction vs with
  | nil => simp
  | cons v t ih =>
    simp only [List.map_cons, List.sum_cons]
    have := termVal_nonneg (getc m v) (μ v)
    omega

theorem ineqVal_eq_sumTerms (rs : RState) (μ : Nat → Bool) :
    ineqVal rs μ = sumTerms rs.coeffs rs.activeVars μ := rfl

theorem getc_cons_self (p : Nat × Int) (t : List (Nat × Int)) (v : Nat)
    (h : p.1 = v) : getc (p :: t) v = p.2 := by
  unfold getc
  rw [List.find?_cons_of_pos _ (by simpa using h)]

theorem getc_cons_ne (p : Nat × Int) (t : List (Nat × Int)) (v : Nat)
    (h : p.1 ≠ v) : getc (p :: t) v = getc t v := by
  unfold getc
  rw [List.find?_cons_of_neg _ (by simpa using h)]

@[simp] theorem getc_setc_same (m : List (Nat × Int)) (v : Nat) (c : Int) :
    getc (setc m v c) v = c := by
  induction m with
  | nil => simp [getc, setc]
  | cons p t ih =>
    by_cases h : p.1 = v
    · simp only [setc, h, beq_self_eq_true, if_true]
      exact getc_cons_self _ _ _ rfl
    · simp only [setc, beq_iff_eq, h, if_false]
      rw [getc_cons_ne _ _ _ h]
      exact ih

@[simp] theorem getc_setc_other (m : List (Nat × Int)) (v w : Nat) (c : Int)
    (h : w ≠ v) : getc (setc m v c) w = getc m w := by
  induction m with
  | nil =>
    simp only [setc]
    rw [getc_cons_ne _ _ _ (Ne.symm h)]
  | cons p t ih =>
    by_cases hp : p.1 = v
    · subst hp
      simp only [setc, beq_self_eq_true, if_true]
      rw [getc_cons_ne (p.1, c) t w (Ne.symm h), getc_cons_ne p t w (Ne.symm h)]
    · simp only [setc, beq_iff_eq, hp, if_false]
      by_cases hw : p.1 = w
      · rw [getc_cons_self _ _ _ hw, getc_cons_self _ _ _ hw]
      · rw [getc_cons_ne _ _ _ hw, getc_cons_ne _ _ _ hw]
        exact ih

/-- Updating a variable outside `vs` does not change the sum. -/
theorem sumTerms_setc_not_mem (m : List (Nat × Int)) (vs : List Nat) (v : Nat)
    (c : Int) (μ : Nat → Bool) (hv : v ∉ vs) :
    sumTerms (setc m v c) vs μ = sumTerms m vs μ := by
  unfold sumTerms
  induction vs with
  | nil => rfl
  | cons w t ih =>
    simp only [List.mem_cons, not_or] at hv
    simp only [List.map_cons, List.sum_cons]
    rw [getc_setc_other m v w c (Ne.symm hv.1), ih hv.2]

/-- Updating the (unique) occurrence of `v` in `vs` changes the sum by the
term difference. -/
theorem sumTerms_setc_mem (m : List (Nat × Int)) (vs : List Nat) (v : Nat)
    (c : Int) (μ : Nat → Bool) (hnd : vs.Nodup) (hv : v ∈ vs) :
    sumTerms (setc m v c) vs μ
      = sumTerms m vs μ - termVal (getc m v) (μ v) + termVal c (μ v) := by
  unfold sumTerms
  induction vs with
  | nil => cases hv
  | cons w t ih =>
    rcases List.mem_cons.mp hv with h | h
    · subst h
      have hvt : v ∉ t := (List.nodup_cons.mp hnd).1
      simp only [List.map_cons, List.sum_cons]
      have := sumTerms_setc_not_mem m t v c μ hvt
      unfold sumTerms at this
      rw [getc_setc_same, this]
      ring
    · have hwv : w ≠ v := by
        rintro rfl
        exact (List.nodup_cons.mp hnd).1 h
      simp only [List.map_cons, List.sum_cons]
      rw [getc_setc_other m v w c hwv, ih (List.nodup_cons.mp hnd).2 h]
      ring

theorem term_le_sumTerms (m : List (Nat × Int)) (vs : List Nat) (v : Nat)
    (μ : Nat → Bool) (hv : v ∈ vs) :
    termVal (getc m v) (μ v) ≤ sumTerms m vs μ := by
  unfold sumTerms
  induction vs with
  | nil => cases hv
  | cons w t ih =>
    simp only [List.map_cons, List.sum_cons]
    rcases List.mem_cons.mp hv with h | h
    · subst h
      have := sumTerms_nonneg m t μ
      unfold sumTerms at this
      omega
    · have h1 := ih h
      have h2 := termVal_nonneg (getc m w) (μ w)
      omega

/-- Replacing one term by its clip keeps the `≥ bound` inequality. -/
theorem clip_term_iff (b : Nat) (c : Int) (x : Bool) (R : Int) (hR : 0 ≤ R) :
    ((b : Int) ≤ termVal c x + R ↔ (b : Int) ≤ termVal (clipv b c) x + R) := by
  cases x <;> unfold clipv termVal <;> split_ifs <;> omega

/-- Clipping the coefficient of one variable preserves the inequality. -/
theorem ineq_clip_preserved (m : List (Nat × Int)) (vs : List Nat) (b : Nat)
    (v : Nat) (hnd : vs.Nodup) (μ : Nat → Bool) :
    ((b : Int) ≤ sumTerms m vs μ ↔
     (b : Int) ≤ sumTerms (setc m v (clipv b (getc m v))) vs μ) := by
  by_cases hv : v ∈ vs
  · rw [sumTerms_setc_mem m vs v _ μ hnd hv]
    have hle := term_le_sumTerms m vs v μ hv
    have h := clip_term_iff b (getc m v) (μ v) (sumTerms m vs μ - termVal (getc m v) (μ v))
      (by omega)
    omega
  · rw [sumTerms_setc_not_mem m vs v _ μ hv]

/-- `get_abs_coeff` does not latch when the coefficient is in `i32` range. -/
theorem getAbsCoeff_no_latch (rs : RState) (v : Nat)
    (h : (rs.getCoeff v).natAbs ≤ 2 ^ 31 - 1) :
    getAbsCoeff rs v = ((rs.getCoeff v).natAbs, rs) := by
  unfold getAbsCoeff INT_MIN UINT_MAX
  rw [if_neg]
  omega

/-- `get_int_coeff` does not latch when the coefficient is in `i32` range. -/
theorem getIntCoeff_no_latch (rs : RState) (v : Nat)
    (h : (rs.getCoeff v).natAbs ≤ 2 ^ 31 - 1) :
    getIntCoeff rs v = (rs.getCoeff v, rs) := by
  unfold getIntCoeff INT_MAX INT_MIN
  rw [if_neg]
  omega

/-- One unfolding of the gcd loop under in-range coefficients: the scanned
coefficient contributes `min bound |c|` to the gcd and is clipped in place
when `bound < |c|`. -/
theorem cutGcd_cons (rs : RState) (v : Nat) (t : List Nat) (g0 : Nat)
    (hv : (getc rs.coeffs v).natAbs ≤ 2 ^ 31 - 1) (hg : g0 ≠ 1) :
    cutGcd rs (v :: t) g0 =
      if (getc rs.coeffs v).natAbs = 0 then cutGcd rs t g0
      else
        cutGcd (if rs.bound < (getc rs.coeffs v).natAbs
                then { rs with coeffs := setc rs.coeffs v (clipv rs.bound (getc rs.coeffs v)) }
                else rs)
          t
          (if g0 = 0 then min rs.bound (getc rs.coeffs v).natAbs
           else Nat.gcd g0 (min rs.bound (getc rs.coeffs v).natAbs)) := by
  have habs := getAbsCoeff_no_latch rs v hv
  have hco : rs.getCoeff v = getc rs.coeffs v := rfl
  rw [cutGcd, if_neg hg, habs]
  simp only [hco]
  by_cases h0 : (getc rs.coeffs v).natAbs = 0
  · simp only [h0, eq_self_iff_true, if_true]
  · simp only [h0, if_false]
    by_cases hb : rs.bound < (getc rs.coeffs v).natAbs
    · have hmin : min rs.bound (getc rs.coeffs v).natAbs = rs.bound := by omega
      have hclip : clipv rs.bound (getc rs.coeffs v) =
          if getc rs.coeffs v > 0 then (rs.bound : Int) else -(rs.bound : Int) := by
        unfold clipv
        rw [if_pos hb]
      rw [if_pos hb, hmin, hclip]
      by_cases hs : getc rs.coeffs v > 0
      · simp only [hs, if_true, if_pos hb]
      · simp only [hs, if_false, if_pos hb]
    · have hmin : min rs.bound (getc rs.coeffs v).natAbs = (getc rs.coeffs v).natAbs := by
        omega
      rw [if_neg hb, hmin, if_neg hb]

theorem int_dvd_of_dvd_natAbs {g : Nat} {z : Int} (h : g ∣ z.natAbs) : (g : Int) ∣ z :=
  (Int.natCast_dvd_natCast.mpr h).trans (Int.natAbs_dvd.mpr dvd_rfl)

theorem natAbs_clipv (b : Nat) (c : Int) : (clipv b c).natAbs = min b c.natAbs := by
  unfold clipv
  split_ifs <;> omega

/-- Structure of the gcd loop: active variables, bound and overflow are
unchanged; untouched variables keep their coefficients; and when the
resulting `g` is at least 2, every scanned coefficient has been clipped in
place and is divisible by `g`, and `g` is at most the bound. -/
theorem cutGcd_spec (vs : List Nat) : ∀ (rs : RState) (g0 : Nat),
    (∀ v ∈ vs, (getc rs.coeffs v).natAbs ≤ 2 ^ 31 - 1) → vs.Nodup →
    (cutGcd rs vs g0).2.activeVars = rs.activeVars ∧
    (cutGcd rs vs g0).2.bound = rs.bound ∧
    (cutGcd rs vs g0).2.overflow = rs.overflow ∧
    (∀ w, w ∉ vs → getc (cutGcd rs vs g0).2.coeffs w = getc rs.coeffs w) ∧
    ((cutGcd rs vs g0).1 ≠ 0 → g0 ≠ 0 → (cutGcd rs vs g0).1 ∣ g0) ∧
    (2 ≤ (cutGcd rs vs g0).1 →
      (∀ v ∈ vs, getc (cutGcd rs vs g0).2.coeffs v = clipv rs.bound (getc rs.coeffs v) ∧
          ((cutGcd rs vs g0).1 : Int) ∣ getc (cutGcd rs vs g0).2.coeffs v) ∧
      (g0 = 0 → (cutGcd rs vs g0).1 ≤ rs.bound)) := by
  induction vs with
  | nil =>
    intro rs g0 hr hnd
    refine ⟨rfl, rfl, rfl, fun w _ => rfl, fun _ _ => dvd_rfl, fun h2 => ⟨?_, ?_⟩⟩
    · intro v hv
      cases hv
    · intro h0
      simp only [cutGcd] at h2
      omega
  | cons v t ih =>
    intro rs g0 hr hnd
    by_cases hg : g0 = 1
    · subst hg
      have he : cutGcd rs (v :: t) 1 = (1, rs) := by
        rw [cutGcd]
        simp
      rw [he]
      refine ⟨rfl, rfl, rfl, fun w _ => rfl, fun _ _ => dvd_rfl, fun h2 => ?_⟩
      omega
    · have hvt : v ∉ t := (List.nodup_cons.mp hnd).1
      have hndt : t.Nodup := (List.nodup_cons.mp hnd).2
      rw [cutGcd_cons rs v t g0 (hr v (List.mem_cons_self v t)) hg]
      by_cases h0 : (getc rs.coeffs v).natAbs = 0
      · rw [if_pos h0]
        obtain ⟨e1, e2, e3, e4, e5, e6⟩ :=
          ih rs g0 (fun w hw => hr w (List.mem_cons_of_mem v hw)) hndt
        refine ⟨e1, e2, e3, ?_, e5, ?_⟩
        · intro w hw
          exact e4 w (fun hh => hw (List.mem_cons_of_mem v hh))
        · intro h2
          obtain ⟨f1, f2⟩ := e6 h2
          refine ⟨?_, f2⟩
          intro w hw
          rcases List.mem_cons.mp hw with h | h
          · subst h
            have hc0 : getc rs.coeffs w = 0 := by omega
            rw [e4 w hvt, hc0]
            refine ⟨?_, dvd_zero _⟩
            unfold clipv
            simp
          · exact f1 w h
      · rw [if_neg h0]
        set contrib := min rs.bound (getc rs.coeffs v).natAbs with hcontrib
        set rs1 := if rs.bound < (getc rs.coeffs v).natAbs
            then { rs with coeffs := setc rs.coeffs v (clipv rs.bound (getc rs.coeffs v)) }
            else rs with hrs1
        set g1 := if g0 = 0 then contrib else Nat.gcd g0 contrib with hg1
        have hav1 : rs1.activeVars = rs.activeVars := by
          rw [hrs1]
          split <;> rfl
        have hb1 : rs1.bound = rs.bound := by
          rw [hrs1]
          split <;> rfl
        have hov1 : rs1.overflow = rs.overflow := by
          rw [hrs1]
          split <;> rfl
        have hother : ∀ w, w ≠ v → getc rs1.coeffs w = getc rs.coeffs w := by
          intro w hw
          rw [hrs1]
          split
          · exact getc_setc_other _ _ _ _ hw
          · rfl
        have hself : getc rs1.coeffs v = clipv rs.bound (getc rs.coeffs v) := by
          rw [hrs1]
          by_cases h : rs.bound < (getc rs.coeffs v).natAbs
          · rw [if_pos h]
            exact getc_setc_same _ _ _
          · rw [if_neg h]
            unfold clipv
            rw [if_neg h]
        obtain ⟨e1, e2, e3, e4, e5, e6⟩ :=
          ih rs1 g1 (fun w hw => by
            rw [hother w (fun hh => hvt (hh ▸ hw))]
            exact hr w (List.mem_cons_of_mem v hw)) hndt
        refine ⟨e1.trans hav1, e2.trans hb1, e3.trans hov1, ?_, ?_, ?_⟩
        · intro w hw
          have hw1 : w ∉ t := fun hh => hw (List.mem_cons_of_mem v hh)
          have hw2 : w ≠ v := fun hh => hw (hh ▸ List.mem_cons_self v t)
          rw [e4 w hw1, hother w hw2]
        · intro hne h00
          have hg1ne : g1 ≠ 0 := by
            rw [hg1]
            rw [if_neg h00]
            intro hz
            exact h00 (Nat.eq_zero_of_gcd_eq_zero_left hz)
          have := e5 hne hg1ne
          refine this.trans ?_
          rw [hg1, if_neg h00]
          exact Nat.gcd_dvd_left g0 contrib
        · intro h2
          obtain ⟨f1, f2⟩ := e6 h2
          have hclipabs : (clipv rs.bound (getc rs.coeffs v)).natAbs = contrib := by
            rw [natAbs_clipv]
          have hgdvd : (cutGcd rs1 t g1).1 ∣ contrib := by
            by_cases hc0 : contrib = 0
            · rw [hc0]
              exact dvd_zero _
            · have hg1ne : g1 ≠ 0 := by
                rw [hg1]
                split
                · exact hc0
                · intro hz
                  exact hc0 (Nat.eq_zero_of_gcd_eq_zero_right hz)
              have h5 := e5 (by omega) hg1ne
              refine h5.trans ?_
              rw [hg1]
              split
              · exact dvd_rfl
              · exact Nat.gcd_dvd_right g0 contrib
          constructor
          · intro w hw
            rcases List.mem_cons.mp hw with h | h
            · subst h
              rw [e4 w hvt, hself]
              refine ⟨rfl, ?_⟩
              apply int_dvd_of_dvd_natAbs
              rw [hclipabs]
              exact hgdvd
            · obtain ⟨g1w, g2w⟩ := f1 w h
              have hwv : w ≠ v := fun hh => hvt (hh ▸ h)
              refine ⟨?_, g2w⟩
              rw [g1w, hb1, hother w hwv]
          · intro h00
            by_cases hc0 : contrib = 0
            · have hg10 : g1 = 0 := by
                rw [hg1, if_pos h00, hc0]
              have := f2 hg10
              omega
            · have hg1c : g1 = contrib := by
                rw [hg1, if_pos h00]
              have hg1ne : g1 ≠ 0 := by
                rw [hg1c]
                exact hc0
              have h5 := e5 (by omega) hg1ne
              have hle := Nat.le_of_dvd (Nat.pos_of_ne_zero hg1ne) h5
              omega

/-- The bypass scan returns `true` iff some active coefficient has absolute
value 1, and (under in-range coefficients) leaves the state unchanged. -/
theorem cutBypass_spec (vs : List Nat) : ∀ (rs : RState),
    (∀ v ∈ vs, (getc rs.coeffs v).natAbs ≤ 2 ^ 31 - 1) →
    cutBypass rs vs = (vs.any (fun v => (getc rs.coeffs v).natAbs == 1), rs) := by
  induction vs with
  | nil =>
    intro rs hr
    rfl
  | cons v t ih =>
    intro rs hr
    have habs := getAbsCoeff_no_latch rs v (hr v (List.mem_cons_self v t))
    have hco : rs.getCoeff v = getc rs.coeffs v := rfl
    unfold cutBypass
    rw [habs]
    simp only [hco, List.any_cons]
    by_cases h1 : (getc rs.coeffs v).natAbs = 1
    · simp [h1]
    · have : ((getc rs.coeffs v).natAbs == 1) = false := by
        simp [h1]
      rw [if_neg h1, this, Bool.false_or]
      exact ih rs (fun w hw => hr w (List.mem_cons_of_mem v hw))

/-- The dedup-and-drop-zeros fold of `normalize_active_coeffs`, on a
duplicate-free list, is a filter. -/
theorem normalize_foldl (coeffs : List (Nat × Int)) : ∀ (vs : List Nat) (acc : List Nat),
    (∀ v ∈ vs, v ∉ acc) → vs.Nodup →
    vs.foldl (fun acc v => if v ∈ acc ∨ getc coeffs v = 0 then acc else acc ++ [v]) acc
      = acc ++ vs.filter (fun v => !(getc coeffs v == 0)) := by
  intro vs
  induction vs with
  | nil =>
    intro acc _ _
    simp
  | cons v t ih =>
    intro acc hacc hnd
    simp only [List.foldl_cons, List.filter_cons]
    by_cases h0 : getc coeffs v = 0
    · rw [if_pos (Or.inr h0)]
      have : (!(getc coeffs v == 0)) = false := by simp [h0]
      rw [this]
      exact ih acc (fun w hw => hacc w (List.mem_cons_of_mem v hw)) (List.nodup_cons.mp hnd).2
    · rw [if_neg (by
        push_neg
        exact ⟨hacc v (List.mem_cons_self v t), h0⟩)]
      have : (!(getc coeffs v == 0)) = true := by simp [h0]
      rw [this]
      rw [ih (acc ++ [v]) (fun w hw => by
        intro hmem
        rcases List.mem_append.mp hmem with h | h
        · exact hacc w (List.mem_cons_of_mem v hw) h
        · have : w = v := by simpa using h
          exact (List.nodup_cons.mp hnd).1 (this ▸ hw)) (List.nodup_cons.mp hnd).2]
      simp

theorem normalizeActiveCoeffs_spec (rs : RState) (hnd : rs.activeVars.Nodup) :
    (normalizeActiveCoeffs rs).activeVars
      = rs.activeVars.filter (fun v => !(getc rs.coeffs v == 0)) ∧
    (normalizeActiveCoeffs rs).coeffs = rs.coeffs ∧
    (normalizeActiveCoeffs rs).bound = rs.bound ∧
    (normalizeActiveCoeffs rs).overflow = rs.overflow := by
  refine ⟨?_, rfl, rfl, rfl⟩
  unfold normalizeActiveCoeffs
  simpa using normalize_foldl rs.coeffs rs.activeVars [] (by simp) hnd

/-- Dropping zero-coefficient variables does not change the sum. -/
theorem sumTerms_filter_nonzero (m : List (Nat × Int)) (vs : List Nat) (μ : Nat → Bool) :
    sumTerms m (vs.filter (fun v => !(getc m v == 0))) μ = sumTerms m vs μ := by
  induction vs with
  | nil => rfl
  | cons v t ih =>
    unfold sumTerms at *
    by_cases h0 : getc m v = 0
    · rw [List.filter_cons_of_neg (by simp [h0])]
      rw [ih, List.map_cons, List.sum_cons, h0, termVal_zero, zero_add]
    · rw [List.filter_cons_of_pos (by simp [h0])]
      rw [List.map_cons, List.map_cons, List.sum_cons, List.sum_cons, ih]

/-- The coefficient-division fold: every listed variable is divided once,
all others are untouched. -/
theorem foldDiv_getc (g : Nat) (vs : List Nat) : ∀ (m : List (Nat × Int)), vs.Nodup →
    (∀ w, w ∉ vs →
      getc (vs.foldl (fun mm v => setc mm v (Int.tdiv (getc mm v) (g : Int))) m) w = getc m w) ∧
    (∀ v ∈ vs,
      getc (vs.foldl (fun mm v => setc mm v (Int.tdiv (getc mm v) (g : Int))) m) v
        = Int.tdiv (getc m v) (g : Int)) := by
  induction vs with
  | nil =>
    intro m _
    exact ⟨fun w _ => rfl, fun v hv => absurd hv (List.not_mem_nil v)⟩
  | cons v t ih =>
    intro m hnd
    have hvt : v ∉ t := (List.nodup_cons.mp hnd).1
    obtain ⟨i1, i2⟩ := ih (setc m v (Int.tdiv (getc m v) (g : Int))) (List.nodup_cons.mp hnd).2
    simp only [List.foldl_cons]
    constructor
    · intro w hw
      have hw1 : w ∉ t := fun hh => hw (List.mem_cons_of_mem v hh)
      have hw2 : w ≠ v := fun hh => hw (hh ▸ List.mem_cons_self v t)
      rw [i1 w hw1, getc_setc_other _ _ _ _ hw2]
    · intro w hw
      rcases List.mem_cons.mp hw with h | h
      · subst h
        rw [i1 w hvt, getc_setc_same]
      · have hwv : w ≠ v := fun hh => hvt (hh ▸ h)
        rw [i2 w h, getc_setc_other _ _ _ _ hwv]

/-- Division of an exactly-divisible coefficient scales its term value. -/
theorem termVal_tdiv (g : Nat) (c : Int) (x : Bool) (hg : 2 ≤ g) (hd : (g : Int) ∣ c) :
    termVal (Int.tdiv c (g : Int)) x * (g : Int) = termVal c x := by
  have hgpos : (0 : Int) < (g : Int) := by
    exact_mod_cast Nat.lt_of_lt_of_le Nat.zero_lt_two hg
  obtain ⟨d, rfl⟩ := hd
  rw [Int.mul_tdiv_cancel_left _ (by omega)]
  rcases lt_trichotomy d 0 with h | h | h
  · have h1 : (g : Int) * d < 0 := mul_neg_of_pos_of_neg hgpos h
    unfold termVal
    rw [if_neg (show ¬ (d > 0) by omega), if_pos h,
        if_neg (show ¬ ((g : Int) * d > 0) by omega), if_pos h1]
    cases x
    · simp only [Bool.false_eq_true, if_false]
      ring
    · simp only [if_true]
      ring
  · subst h
    simp [termVal]
  · have h1 : 0 < (g : Int) * d := mul_pos hgpos h
    unfold termVal
    rw [if_pos h, if_pos h1]
    cases x
    · simp only [Bool.false_eq_true, if_false]
      ring
    · simp only [if_true]
      ring

/-- Summing the divided terms and multiplying back by `g` recovers the sum. -/
theorem sumTerms_mul_g (m2 m : List (Nat × Int)) (vs : List Nat) (g : Nat) (μ : Nat → Bool)
    (hg : 2 ≤ g)
    (hpt : ∀ v ∈ vs, getc m2 v = Int.tdiv (getc m v) (g : Int) ∧ (g : Int) ∣ getc m v) :
    sumTerms m2 vs μ * (g : Int) = sumTerms m vs μ := by
  induction vs with
  | nil => simp [sumTerms]
  | cons v t ih =>
    unfold sumTerms at *
    simp only [List.map_cons, List.sum_cons, add_mul]
    obtain ⟨h1, h2⟩ := hpt v (List.mem_cons_self v t)
    rw [h1, termVal_tdiv g _ _ hg h2, ih (fun w hw => hpt w (List.mem_cons_of_mem v hw))]

/-- `B ≤ S·g  ↔  ⌈B/g⌉ ≤ S` for a nonnegative integer `S`. -/
theorem div_bound_iff (B g : Nat) (S : Int) (hg : 2 ≤ g) (hS : 0 ≤ S) :
    ((((B + g - 1) / g : Nat) : Int) ≤ S) ↔ ((B : Int) ≤ S * (g : Int)) := by
  obtain ⟨s, rfl⟩ := Int.eq_ofNat_of_zero_le hS
  have hcast : ((s : Int) * (g : Int)) = ((s * g : Nat) : Int) := by push_cast; ring
  rw [hcast]
  rw [Int.ofNat_le, Int.ofNat_le]
  rw [Nat.div_le_iff_le_mul_add_pred (by omega), Nat.mul_comm g s]
  generalize s * g = a
  omega

/-- Model preservation through the gcd loop: every step either latches the
overflow flag or clips one coefficient, both of which keep the set of 0/1
models of the inequality. -/
theorem cutGcd_models (vs : List Nat) : ∀ (rs : RState) (g0 : Nat),
    (∀ v ∈ vs, (getc rs.coeffs v).natAbs ≤ 2 ^ 31 - 1) →
    rs.activeVars.Nodup →
    ∀ μ, (((rs.bound : Int) ≤ sumTerms rs.coeffs rs.activeVars μ) ↔
          ((rs.bound : Int) ≤ sumTerms (cutGcd rs vs g0).2.coeffs rs.activeVars μ)) := by
  induction vs with
  | nil =>
    intro rs g0 hr hnd μ
    exact Iff.rfl
  | cons v t ih =>
    intro rs g0 hr hnd μ
    by_cases hg : g0 = 1
    · subst hg
      have he : cutGcd rs (v :: t) 1 = (1, rs) := by
        rw [cutGcd]
        simp
      rw [he]
    · rw [cutGcd_cons rs v t g0 (hr v (List.mem_cons_self v t)) hg]
      by_cases h0 : (getc rs.coeffs v).natAbs = 0
      · rw [if_pos h0]
        exact ih rs g0 (fun w hw => hr w (List.mem_cons_of_mem v hw)) hnd μ
      · rw [if_neg h0]
        by_cases hb : rs.bound < (getc rs.coeffs v).natAbs
        · rw [if_pos hb]
          set rs1 : RState :=
            { rs with coeffs := setc rs.coeffs v (clipv rs.bound (getc rs.coeffs v)) }
            with hrs1
          have step := ineq_clip_preserved rs.coeffs rs.activeVars rs.bound v hnd μ
          have hr1 : ∀ w ∈ t, (getc rs1.coeffs w).natAbs ≤ 2 ^ 31 - 1 := by
            intro w hw
            by_cases hwv : w = v
            · subst hwv
              rw [hrs1]
              simp only [getc_setc_same]
              rw [natAbs_clipv]
              have := hr w (List.mem_cons_self w t)
              omega
            · rw [hrs1]
              simp only []
              rw [getc_setc_other _ _ _ _ hwv]
              exact hr w (List.mem_cons_of_mem v hw)
          have ihh := ih rs1 (if g0 = 0 then min rs.bound (getc rs.coeffs v).natAbs
              else Nat.gcd g0 (min rs.bound (getc rs.coeffs v).natAbs))
            hr1 hnd μ
          exact step.trans ihh
        · rw [if_neg hb]
          exact ih rs _ (fun w hw => hr w (List.mem_cons_of_mem v hw)) hnd μ

/-- `update_max_sum` succeeds whenever the clipped sum fits in `u32`. -/
theorem updateMaxSumGo_ok (k : Nat) (wlits : List WLiteral) : ∀ (s : Nat),
    s + ((wlits.map (fun wl => min k wl.1)).sum) ≤ 2 ^ 32 - 1 →
    ∃ res, updateMaxSumGo k wlits s = .ok res := by
  induction wlits with
  | nil =>
    intro s _
    exact ⟨([], s), rfl⟩
  | cons wl t ih =>
    intro s hs
    obtain ⟨w, l⟩ := wl
    simp only [List.map_cons, List.sum_cons] at hs
    have hsm : (s + min k w) % 2 ^ 32 = s + min k w := by
      apply Nat.mod_eq_of_lt
      omega
    have hnext : (s + min k w) + ((t.map (fun wl => min k wl.1)).sum) ≤ 2 ^ 32 - 1 := by
      omega
    obtain ⟨res, hres⟩ := ih (s + min k w) hnext
    refine ⟨((min k w, l) :: res.1, res.2), ?_⟩
    simp only [updateMaxSumGo]
    rw [hsm, if_neg (by omega), hres]

theorem sumW_nil : sumW [] = 0 := rfl

theorem sumW_cons (wl : WLiteral) (t : List WLiteral) :
    sumW (wl :: t) = wl.1 + sumW t := by
  rw [sumW, sumW, List.map_cons, List.sum_cons]

theorem sortDesc_sorted (ls : List WLiteral) :
    (sortDesc ls).Sorted (fun a b => b.1 ≤ a.1) := by
  haveI : IsTotal WLiteral (fun a b => b.1 ≤ a.1) := ⟨fun a b => by omega⟩
  haveI : IsTrans WLiteral (fun a b => b.1 ≤ a.1) := ⟨fun a b c h1 h2 => by omega⟩
  exact List.sorted_insertionSort _ ls

theorem sortDesc_perm (ls : List WLiteral) : (sortDesc ls).Perm ls :=
  List.perm_insertionSort _ ls

/-- The `m_wlits` build loop changes nothing when all coefficients are in
`i32` range; it produces `(get_abs_coeff(v), literal(v, coeff < 0))` per
active variable. -/
theorem buildWlits_fold (rs : RState) : ∀ (vs : List Nat) (acc : List WLiteral),
    (∀ v ∈ vs, (getc rs.coeffs v).natAbs ≤ 2 ^ 31 - 1) →
    vs.foldl buildStep (acc, rs)
      = (acc ++ vs.map
          (fun v => ((getc rs.coeffs v).natAbs, ⟨v, decide (getc rs.coeffs v < 0)⟩)), rs) := by
  intro vs
  induction vs with
  | nil =>
    intro acc _
    simp
  | cons v t ih =>
    intro acc hr
    have h1 := getIntCoeff_no_latch rs v (hr v (List.mem_cons_self v t))
    have h2 := getAbsCoeff_no_latch rs v (hr v (List.mem_cons_self v t))
    have hco : rs.getCoeff v = getc rs.coeffs v := rfl
    have hstep : buildStep (acc, rs) v
      = (acc ++ [((getc rs.coeffs v).natAbs, ⟨v, decide (getc rs.coeffs v < 0)⟩)], rs) := by
      simp only [buildStep, h1, h2, hco]
    rw [List.foldl_cons, hstep, ih _ (fun w hw => hr w (List.mem_cons_of_mem v hw))]
    simp

theorem buildWlits_no_latch (rs : RState)
    (hr : ∀ v ∈ rs.activeVars, (getc rs.coeffs v).natAbs ≤ 2 ^ 31 - 1) :
    buildWlits rs = (rs.activeVars.map
      (fun v => ((getc rs.coeffs v).natAbs, ⟨v, decide (getc rs.coeffs v < 0)⟩)), rs) := by
  unfold buildWlits
  simpa using buildWlits_fold rs rs.activeVars [] hr

/-- The selection loop returns the least count of sorted terms whose weight
sum reaches the bound (when the bound is reachable at all). -/
theorem selectKGo_least (bound : Nat) : ∀ (ws : List WLiteral) (k s s0 : Nat),
    bound ≤ s + sumW ws →
    ∃ n, n ≤ ws.length ∧
      (selectKGo bound ws (k, s, s0)).1 = k + n ∧
      bound ≤ s + sumW (ws.take n) ∧
      (∀ m, m < n → s + sumW (ws.take m) < bound) := by
  intro ws
  induction ws with
  | nil =>
    intro k s s0 hb
    rw [sumW] at hb
    simp only [List.map_nil, List.sum_nil] at hb
    refine ⟨0, by omega, rfl, ?_, by omega⟩
    simpa [sumW] using hb
  | cons wl t ih =>
    intro k s s0 hb
    by_cases hs : s ≥ bound
    · refine ⟨0, by omega, ?_, ?_, by omega⟩
      · simp [selectKGo, hs]
      · simpa [sumW] using hs
    · have hb2 : bound ≤ (s + wl.1) + sumW t := by
        rw [sumW_cons] at hb
        omega
      obtain ⟨n, hn, he, hge, hlt⟩ := ih (k + 1) (s + wl.1) s hb2
      have hstep : selectKGo bound (wl :: t) (k, s, s0)
          = selectKGo bound t (k + 1, s + wl.1, s) := by
        simp [selectKGo, hs]
      refine ⟨n + 1, by simpa using Nat.succ_le_succ hn, ?_, ?_, ?_⟩
      · rw [hstep, he]
        omega
      · rw [List.take_succ_cons, sumW_cons]
        omega
      · intro m hm
        cases m with
        | zero =>
          simp only [List.take_zero, sumW_nil]
          omega
        | succ m =>
          have := hlt m (by omega)
          rw [List.take_succ_cons, sumW_cons]
          omega

/-- The trim loop keeps a suffix of its (reversed) input. -/
theorem trimTailRev_drop (bound : Nat) : ∀ (ls : List WLiteral) (s0 : Nat),
    ∃ d, d ≤ ls.length ∧ (trimTailRev bound ls s0).1 = ls.drop d := by
  intro ls
  induction ls with
  | nil =>
    intro s0
    exact ⟨0, by omega, rfl⟩
  | cons wl t ih =>
    intro s0
    by_cases h : wl.1 + s0 ≥ bound
    · refine ⟨0, by omega, ?_⟩
      simp [trimTailRev, h]
    · obtain ⟨d, hd, he⟩ := ih (s0 + wl.1)
      refine ⟨d + 1, by simpa using Nat.succ_le_succ hd, ?_⟩
      simp only [trimTailRev, h, if_false]
      rw [he]
      rfl

/-- The trimmed list `active2card` keeps is a prefix of the sorted list. -/
theorem a2cTrimmed_prefix (rs : RState) : (a2cTrimmed rs) <+: (a2cSorted rs) := by
  obtain ⟨d, hd, he⟩ := trimTailRev_drop (normalizeActiveCoeffs rs).bound
    (a2cSorted rs).reverse
    (selectKGo (normalizeActiveCoeffs rs).bound (a2cSorted rs) (0, 0, 0)).2.2
  unfold a2cTrimmed
  rw [he]
  have hsuff : (a2cSorted rs).reverse.drop d <:+ (a2cSorted rs).reverse :=
    List.drop_suffix d _
  have hpre := List.reverse_prefix.mpr hsuff
  rwa [List.reverse_reverse] at hpre

/-- Under in-range coefficients and a clear overflow flag, `active2card`
computes exactly the `k = 1` / not-asserting / card-emission case split over
the sorted-trimmed list (the state component is the normalized scratchpad). -/
theorem active2card_eq (st : PState) (rs : RState)
    (hnd : rs.activeVars.Nodup)
    (hr : ∀ v ∈ rs.activeVars, (getc rs.coeffs v).natAbs ≤ 2 ^ 31 - 1)
    (hov : rs.overflow = false) :
    active2card st rs =
      (if a2cK rs = 1 then none
       else if a2cSlack st rs ≥ a2cK rs then none
       else addAtLeast none ((a2cTrimmed rs).map (·.2)) (a2cK rs) true,
       normalizeActiveCoeffs rs) := by
  have hsub : ∀ v ∈ (normalizeActiveCoeffs rs).activeVars, v ∈ rs.activeVars := by
    intro v hv
    rw [(normalizeActiveCoeffs_spec rs hnd).1] at hv
    exact List.mem_of_mem_filter hv
  have hrn : ∀ v ∈ (normalizeActiveCoeffs rs).activeVars,
      (getc (normalizeActiveCoeffs rs).coeffs v).natAbs ≤ 2 ^ 31 - 1 :=
    fun v hv => hr v (hsub v hv)
  have hbw := buildWlits_no_latch (normalizeActiveCoeffs rs) hrn
  have hovn : (normalizeActiveCoeffs rs).overflow = false := hov
  simp only [active2card, a2cK, a2cSlack, a2cTrimmed, a2cSorted, hbw, hovn,
    Bool.false_eq_true, if_false]
  by_cases hk : (selectKGo (normalizeActiveCoeffs rs).bound
      (sortDesc ((normalizeActiveCoeffs rs).activeVars.map
        (fun v => ((getc (normalizeActiveCoeffs rs).coeffs v).natAbs,
          ⟨v, decide (getc (normalizeActiveCoeffs rs).coeffs v < 0)⟩)))) (0, 0, 0)).1 = 1
  · rw [if_pos hk, if_pos hk]
  · rw [if_neg hk, if_neg hk]
    split_ifs with hs
    · rfl
    · rfl

end BA


/-- **C8**: for every cardinality constraint and every pb constraint
(satisfying the constraint invariants `1 ≤ k ≤ size` resp. `1 ≤ k ≤ Σ aᵢ`),
applying `negate` twice restores the original size, threshold, literal
sequence, and (for pb) the original weights. -/
theorem C8_negate_involution (c : BA.Card) (p : BA.PB)
    (hc1 : 1 ≤ c.k) (hc2 : c.k ≤ c.lits.length)
    (hp1 : 1 ≤ p.k) (hp2 : p.k ≤ (p.wlits.map (·.1)).sum) :
    (BA.Card.negate c).negate = c ∧ (BA.PB.negate p).negate = p :=
  ⟨BA.card_negate_negate c hc1 hc2, BA.pb_negate_negate p hp1 hp2⟩

/-- Witness for C8 at a concrete card `x0 + x1 + x2 ≥ 2` and
pb `2·x0 + 3·x1 ≥ 4`. -/
theorem C8_negate_involution_witness :
    (BA.Card.negate ⟨none, [⟨0, false⟩, ⟨1, false⟩, ⟨2, false⟩], 2⟩).negate
        = ⟨none, [⟨0, false⟩, ⟨1, false⟩, ⟨2, false⟩], 2⟩ ∧
    (BA.PB.negate ⟨none, [(2, ⟨0, false⟩), (3, ⟨1, false⟩)], 4, 0, 0, 5⟩).negate
        = ⟨none, [(2, ⟨0, false⟩), (3, ⟨1, false⟩)], 4, 0, 0, 5⟩ :=
  (C8_negate_involution ⟨none, [⟨0, false⟩, ⟨1, false⟩, ⟨2, false⟩], 2⟩
    ⟨none, [(2, ⟨0, false⟩), (3, ⟨1, false⟩)], 4, 0, 0, 5⟩
    (by decide) (by decide) (by decide) (by decide)).imp id id

/-- **C4** (code bug, evaluation at the failing input): `inc_coeff` on the
scratchpad with bound 2 and a *negated* literal of variable 0 with offset 5
stores coefficient `+2` — i.e. it clips the out-of-range negative coefficient
`−5` to `+bound`, flipping its sign, where the claim (and the sibling
clipping code in `cut` and in `resolve_conflict`) demand `−bound`.  No
overflow is latched (−5 is inside the `i32` range). -/
theorem C4_inc_coeff_clip_flips_sign :
    BA.getc (BA.incCoeff ⟨[], [], 2, false⟩ ⟨0, true⟩ 5).coeffs 0 = 2 ∧
    (BA.incCoeff ⟨[], [], 2, false⟩ ⟨0, true⟩ 5).overflow = false := by
  decide

/-- **C7** (amended): `cut` first clips every coefficient whose absolute
value exceeds the bound to `±bound` (sign preserved), computes the gcd `g`
of the *clipped* nonzero absolute coefficients, and when `g ≥ 2` divides
every coefficient by `g` and replaces the bound `B` by `⌈B/g⌉`; it performs
no change when some coefficient has absolute value 1; and the whole
transformation preserves the set of 0/1 models of the resolvent inequality.
(Hypotheses: duplicate-free active list, coefficients in `i32` range, bound
at most `2^31 − 1` — the ranges maintained by `inc_coeff` / `inc_bound`.) -/
theorem C7_cut_clip_gcd_preserves_models (rs : BA.RState)
    (hnd : rs.activeVars.Nodup)
    (hr : ∀ v ∈ rs.activeVars, (BA.getc rs.coeffs v).natAbs ≤ 2 ^ 31 - 1)
    (hb : rs.bound ≤ 2 ^ 31 - 1) :
    ((∃ v ∈ rs.activeVars, (BA.getc rs.coeffs v).natAbs = 1) → BA.cut rs = rs) ∧
    (∀ μ, BA.ineqHolds rs μ ↔ BA.ineqHolds (BA.cut rs) μ) := by
  have hbyp := BA.cutBypass_spec rs.activeVars rs hr
  constructor
  · rintro ⟨v, hv, h1⟩
    have hany : rs.activeVars.any (fun v => (BA.getc rs.coeffs v).natAbs == 1) = true := by
      rw [List.any_eq_true]
      exact ⟨v, hv, by simpa using h1⟩
    unfold BA.cut
    simp only [hbyp, hany, if_true]
  · intro μ
    unfold BA.cut
    simp only [hbyp]
    by_cases hany : rs.activeVars.any (fun v => (BA.getc rs.coeffs v).natAbs == 1) = true
    · simp only [hany, if_true]
    · rw [Bool.not_eq_true] at hany
      simp only [hany, Bool.false_eq_true, if_false]
      obtain ⟨g, rs2, hgg⟩ : ∃ g rs2, BA.cutGcd rs rs.activeVars 0 = (g, rs2) := ⟨_, _, rfl⟩
      simp only [hgg]
      have spec := BA.cutGcd_spec rs.activeVars rs 0 hr hnd
      simp only [hgg] at spec
      obtain ⟨e1, e2, e3, e4, e5, e6⟩ := spec
      have models := BA.cutGcd_models rs.activeVars rs 0 hr hnd μ
      simp only [hgg] at models
      by_cases hg2 : 2 ≤ g
      · rw [if_pos hg2]
        obtain ⟨f1, f2g⟩ := e6 hg2
        have hgbound : g ≤ rs.bound := f2g trivial
        have hnd2 : rs2.activeVars.Nodup := e1 ▸ hnd
        have nspec := BA.normalizeActiveCoeffs_spec rs2 hnd2
        obtain ⟨n1, n2, n3, n4⟩ := nspec
        -- the normalized active list is a filter of the original one
        have hav3 : (BA.normalizeActiveCoeffs rs2).activeVars
            = rs.activeVars.filter (fun v => !(BA.getc rs2.coeffs v == 0)) := by
          rw [n1, e1]
        have hndf : (rs.activeVars.filter (fun v => !(BA.getc rs2.coeffs v == 0))).Nodup :=
          hnd.filter _
        obtain ⟨d1, d2⟩ := BA.foldDiv_getc g
          (rs.activeVars.filter (fun v => !(BA.getc rs2.coeffs v == 0))) rs2.coeffs hndf
        have hpt : ∀ v ∈ rs.activeVars.filter (fun v => !(BA.getc rs2.coeffs v == 0)),
            BA.getc ((rs.activeVars.filter (fun v => !(BA.getc rs2.coeffs v == 0))).foldl
                (fun mm v => BA.setc mm v (Int.tdiv (BA.getc mm v) (g : Int))) rs2.coeffs) v
              = Int.tdiv (BA.getc rs2.coeffs v) (g : Int) ∧
            (g : Int) ∣ BA.getc rs2.coeffs v := by
          intro v hv
          refine ⟨d2 v hv, ?_⟩
          exact (f1 v (List.mem_of_mem_filter hv)).2
        have hmul := BA.sumTerms_mul_g
          ((rs.activeVars.filter (fun v => !(BA.getc rs2.coeffs v == 0))).foldl
              (fun mm v => BA.setc mm v (Int.tdiv (BA.getc mm v) (g : Int))) rs2.coeffs)
          rs2.coeffs
          (rs.activeVars.filter (fun v => !(BA.getc rs2.coeffs v == 0))) g μ hg2 hpt
        have hfilt := BA.sumTerms_filter_nonzero rs2.coeffs rs.activeVars μ
        have hnw : (rs.bound + g - 1) % 2 ^ 32 = rs.bound + g - 1 := by
          apply Nat.mod_eq_of_lt
          omega
        have hdiv := BA.div_bound_iff rs.bound g
          (BA.sumTerms
            ((rs.activeVars.filter (fun v => !(BA.getc rs2.coeffs v == 0))).foldl
              (fun mm v => BA.setc mm v (Int.tdiv (BA.getc mm v) (g : Int))) rs2.coeffs)
            (rs.activeVars.filter (fun v => !(BA.getc rs2.coeffs v == 0))) μ)
          hg2 (BA.sumTerms_nonneg _ _ _)
        unfold BA.ineqHolds
        rw [BA.ineqVal_eq_sumTerms, BA.ineqVal_eq_sumTerms]
        simp only [hav3, n2, n3, e2, hnw]
        rw [hdiv, hmul, hfilt]
        exact models
      · rw [if_neg hg2]
        unfold BA.ineqHolds
        rw [BA.ineqVal_eq_sumTerms, BA.ineqVal_eq_sumTerms, e1, e2]
        exact models

/-- **C7** (counterexample to the claim as stated): on the scratchpad with
coefficients `{v0 ↦ 5, v1 ↦ 10}` and bound 3, `cut` clips both coefficients
to 3 first, so it divides by `g = gcd(3,3) = 3` and yields coefficients
`{1, 1}`, whereas the claim's description (gcd of the unclipped coefficients,
`g = gcd(5,10) = 5`) would yield `{1, 2}`. -/
theorem C7_cut_counterexample :
    BA.cut ⟨[(0, 5), (1, 10)], [0, 1], 3, false⟩
        ≠ BA.cutClaim ⟨[(0, 5), (1, 10)], [0, 1], 3, false⟩ ∧
    BA.getc (BA.cut ⟨[(0, 5), (1, 10)], [0, 1], 3, false⟩).coeffs 1 = 1 ∧
    BA.getc (BA.cutClaim ⟨[(0, 5), (1, 10)], [0, 1], 3, false⟩).coeffs 1 = 2 := by
  refine ⟨?_, by decide, by decide⟩
  decide

/-- Witness for C7 at the concrete scratchpad `{v0 ↦ 4, v1 ↦ 6}`, bound 3. -/
theorem C7_cut_clip_gcd_preserves_models_witness :
    ((∃ v ∈ [0, 1], (BA.getc [(0, 4), (1, 6)] v).natAbs = 1) →
        BA.cut ⟨[(0, 4), (1, 6)], [0, 1], 3, false⟩ = ⟨[(0, 4), (1, 6)], [0, 1], 3, false⟩) ∧
    (∀ μ, BA.ineqHolds ⟨[(0, 4), (1, 6)], [0, 1], 3, false⟩ μ ↔
        BA.ineqHolds (BA.cut ⟨[(0, 4), (1, 6)], [0, 1], 3, false⟩) μ) :=
  C7_cut_clip_gcd_preserves_models ⟨[(0, 4), (1, 6)], [0, 1], 3, false⟩
    (by decide) (by decide) (by decide)

/-- **C1** (counterexample to the claim as stated): for `x1+x2+x3+x4 ≥ 3`
with all variables unassigned and watches initialized, assigning `x1 = false`
does *not* leave the constraint without propagation: `add_assign` propagates
the three remaining literals (`x4, x2, x3` in traversal order) — indeed
`x2+x3+x4 ≥ 3` forces all of them. -/
theorem C1_card_scenario_counterexample :
    (BA.addAssignCard ⟨[(1, false, 1)], 1, [], none⟩
        ⟨none, [⟨1, false⟩, ⟨2, false⟩, ⟨3, false⟩, ⟨4, false⟩], 3⟩ ⟨1, false⟩).2.2.prop
      = [⟨4, false⟩, ⟨2, false⟩, ⟨3, false⟩] ∧
    (BA.addAssignCard ⟨[(1, false, 1)], 1, [], none⟩
        ⟨none, [⟨1, false⟩, ⟨2, false⟩, ⟨3, false⟩, ⟨4, false⟩], 3⟩ ⟨1, false⟩).2.2.prop
      ≠ [] := by
  refine ⟨by decide, ?_⟩
  decide

/-- **C1** (amended): for the cardinality constraint `x1+x2+x3+x4 ≥ 3`
created with all four variables unassigned, `init_watch` watches all four
positions and changes nothing; assigning `x1 = false` makes `add_assign`
propagate exactly `x4, x2, x3` (in the traversal order of the body), i.e.
`x2 = x3 = x4 = true`, return `l_true`, and leave the constraint watching
`{x1,x2,x3,x4}` with a non-false prefix of size 3; the scenario's second
step (`x2 = false`) cannot occur since `x2` has been propagated true. -/
theorem C1_card_scenario :
    BA.initWatchCard ⟨[], 0, [], none⟩
        ⟨none, [⟨1, false⟩, ⟨2, false⟩, ⟨3, false⟩, ⟨4, false⟩], 3⟩ true
      = (⟨none, [⟨1, false⟩, ⟨2, false⟩, ⟨3, false⟩, ⟨4, false⟩], 3⟩, ⟨[], 0, [], none⟩, true) ∧
    (BA.addAssignCard ⟨[(1, false, 1)], 1, [], none⟩
        ⟨none, [⟨1, false⟩, ⟨2, false⟩, ⟨3, false⟩, ⟨4, false⟩], 3⟩ ⟨1, false⟩).1 = .ltrue ∧
    (BA.addAssignCard ⟨[(1, false, 1)], 1, [], none⟩
        ⟨none, [⟨1, false⟩, ⟨2, false⟩, ⟨3, false⟩, ⟨4, false⟩], 3⟩ ⟨1, false⟩).2.2.prop
      = [⟨4, false⟩, ⟨2, false⟩, ⟨3, false⟩] ∧
    (BA.addAssignCard ⟨[(1, false, 1)], 1, [], none⟩
        ⟨none, [⟨1, false⟩, ⟨2, false⟩, ⟨3, false⟩, ⟨4, false⟩], 3⟩ ⟨1, false⟩).2.2.conflict
      = none ∧
    ([⟨1, false⟩, ⟨2, false⟩, ⟨3, false⟩, ⟨4, false⟩] : List BA.Literal).all
      (fun l => (BA.addAssignCard ⟨[(1, false, 1)], 1, [], none⟩
        ⟨none, [⟨1, false⟩, ⟨2, false⟩, ⟨3, false⟩, ⟨4, false⟩], 3⟩ ⟨1, false⟩).2.1.isWatching l)
      = true ∧
    ((BA.addAssignCard ⟨[(1, false, 1)], 1, [], none⟩
        ⟨none, [⟨1, false⟩, ⟨2, false⟩, ⟨3, false⟩, ⟨4, false⟩], 3⟩ ⟨1, false⟩).2.1.lits.takeWhile
      (fun l => (BA.addAssignCard ⟨[(1, false, 1)], 1, [], none⟩
        ⟨none, [⟨1, false⟩, ⟨2, false⟩, ⟨3, false⟩, ⟨4, false⟩], 3⟩ ⟨1, false⟩).2.2.value l
          ≠ .lfalse)).length = 3 := by
  refine ⟨by decide, by decide, by decide, by decide, by decide, ?_⟩
  decide

/-- **C2** (counterexample to the claim as stated): for
`5x1+4x2+3x3+2x4+1x5 ≥ 7` with all variables unassigned, assigning
`x1 = false` does not stop after pulling `x3`: the pull loop runs while
`slack < k + a_max = 7 + 4`, so `add_assign` pulls `x3, x4, x5` (final
`num_watch = 4` after swapping `x1` out, slack `4+3+2+1 = 10`) and
propagates `x2 = true` (without `x2`, `3+2+1 = 6 < 7`). -/
theorem C2_pb_scenario_counterexample :
    (BA.addAssignPB ⟨[(1, false, 1)], 1, [], none⟩
        ⟨none, [(5, ⟨1, false⟩), (4, ⟨2, false⟩), (3, ⟨3, false⟩), (2, ⟨4, false⟩),
                (1, ⟨5, false⟩)], 7, 9, 2, 15⟩ ⟨1, false⟩).2.1.numWatch = 4 ∧
    (BA.addAssignPB ⟨[(1, false, 1)], 1, [], none⟩
        ⟨none, [(5, ⟨1, false⟩), (4, ⟨2, false⟩), (3, ⟨3, false⟩), (2, ⟨4, false⟩),
                (1, ⟨5, false⟩)], 7, 9, 2, 15⟩ ⟨1, false⟩).2.1.slack = 10 ∧
    (BA.addAssignPB ⟨[(1, false, 1)], 1, [], none⟩
        ⟨none, [(5, ⟨1, false⟩), (4, ⟨2, false⟩), (3, ⟨3, false⟩), (2, ⟨4, false⟩),
                (1, ⟨5, false⟩)], 7, 9, 2, 15⟩ ⟨1, false⟩).2.2.prop = [⟨2, false⟩] := by
  refine ⟨by decide, by decide, ?_⟩
  decide

/-- **C2** (amended): for `5x1+4x2+3x3+2x4+1x5 ≥ 7` with all variables
unassigned, `init_watch` watches exactly the two terms `{5x1, 4x2}` with
slack 9; then assigning `x1 = false` makes `add_assign` pull `x3, x4, x5`
into the watched prefix and swap `x1` out (watched set `{x5,x2,x3,x4}`,
slack 10, `num_watch` 4), propagate exactly `x2 = true`, and report no
conflict; the scenario's second step (`x2 = false`) cannot occur. -/
theorem C2_pb_scenario :
    BA.initWatchPB ⟨[], 0, [], none⟩
        ⟨none, [(5, ⟨1, false⟩), (4, ⟨2, false⟩), (3, ⟨3, false⟩), (2, ⟨4, false⟩),
                (1, ⟨5, false⟩)], 7, 0, 0, 15⟩ true
      = (⟨none, [(5, ⟨1, false⟩), (4, ⟨2, false⟩), (3, ⟨3, false⟩), (2, ⟨4, false⟩),
                (1, ⟨5, false⟩)], 7, 9, 2, 15⟩, ⟨[], 0, [], none⟩, true) ∧
    (⟨none, [(5, ⟨1, false⟩), (4, ⟨2, false⟩), (3, ⟨3, false⟩), (2, ⟨4, false⟩),
                (1, ⟨5, false⟩)], 7, 9, 2, 15⟩ : BA.PB).isWatching ⟨1, false⟩ = true ∧
    (⟨none, [(5, ⟨1, false⟩), (4, ⟨2, false⟩), (3, ⟨3, false⟩), (2, ⟨4, false⟩),
                (1, ⟨5, false⟩)], 7, 9, 2, 15⟩ : BA.PB).isWatching ⟨2, false⟩ = true ∧
    (⟨none, [(5, ⟨1, false⟩), (4, ⟨2, false⟩), (3, ⟨3, false⟩), (2, ⟨4, false⟩),
                (1, ⟨5, false⟩)], 7, 9, 2, 15⟩ : BA.PB).isWatching ⟨3, false⟩ = false ∧
    BA.addAssignPB ⟨[(1, false, 1)], 1, [], none⟩
        ⟨none, [(5, ⟨1, false⟩), (4, ⟨2, false⟩), (3, ⟨3, false⟩), (2, ⟨4, false⟩),
                (1, ⟨5, false⟩)], 7, 9, 2, 15⟩ ⟨1, false⟩
      = (.lundef,
         ⟨none, [(1, ⟨5, false⟩), (4, ⟨2, false⟩), (3, ⟨3, false⟩), (2, ⟨4, false⟩),
                (5, ⟨1, false⟩)], 7, 10, 4, 15⟩,
         ⟨[(2, true, 1), (1, false, 1)], 1, [⟨2, false⟩], none⟩) ∧
    (⟨none, [(1, ⟨5, false⟩), (4, ⟨2, false⟩), (3, ⟨3, false⟩), (2, ⟨4, false⟩),
                (5, ⟨1, false⟩)], 7, 10, 4, 15⟩ : BA.PB).isWatching ⟨1, false⟩ = false ∧
    (([⟨2, false⟩, ⟨3, false⟩, ⟨4, false⟩, ⟨5, false⟩] : List BA.Literal).all
      (fun l => (⟨none, [(1, ⟨5, false⟩), (4, ⟨2, false⟩), (3, ⟨3, false⟩), (2, ⟨4, false⟩),
                (5, ⟨1, false⟩)], 7, 10, 4, 15⟩ : BA.PB).isWatching l)) = true := by
  refine ⟨by decide, by decide, by decide, by decide, ?_, by decide, by decide⟩
  decide

/-- **C10**: for every (card/pb) constraint with a reifying literal, if the
reifier is currently not true then `propagate(l, idx)` with `l` not sharing
the reifier's variable returns `true` (keep watching) and changes nothing —
`add_assign` is never reached, so no propagation and no conflict arise; and
when `l` shares the reifier's variable, `propagate` instead re-initializes
the watches via `init_watch` with the polarity `!l.sign()`. -/
theorem C10_reified_propagate_gate (st : BA.PState) (c : BA.Constraint)
    (l clit : BA.Literal) (h : c.litOf = some clit) :
    (st.value clit ≠ .ltrue → l.var ≠ clit.var →
      BA.propagate st c l = (true, c, st)) ∧
    (l.var = clit.var →
      BA.propagate st c l
        = (true, (BA.initWatchC st c (!l.sign)).1, (BA.initWatchC st c (!l.sign)).2.1)) := by
  constructor
  · intro hval hvar
    simp only [BA.propagate, h, if_neg hvar, if_pos hval]
  · intro hvar
    simp only [BA.propagate, h, if_pos hvar]

/-- Witness for C10: a reified card `r ↔ (x1 + x2 ≥ 1)` with `r` unassigned;
`propagate` on the unrelated literal `x5` keeps watching and changes
nothing, and `propagate` on `~r` re-initializes the watches. -/
theorem C10_reified_propagate_gate_witness :
    ((⟨[], 0, [], none⟩ : BA.PState).value ⟨9, false⟩ ≠ .ltrue →
      (⟨5, false⟩ : BA.Literal).var ≠ (⟨9, false⟩ : BA.Literal).var →
      BA.propagate ⟨[], 0, [], none⟩
          (.card ⟨some ⟨9, false⟩, [⟨1, false⟩, ⟨2, false⟩], 1⟩) ⟨5, false⟩
        = (true, .card ⟨some ⟨9, false⟩, [⟨1, false⟩, ⟨2, false⟩], 1⟩, ⟨[], 0, [], none⟩)) ∧
    ((⟨9, true⟩ : BA.Literal).var = (⟨9, false⟩ : BA.Literal).var →
      BA.propagate ⟨[], 0, [], none⟩
          (.card ⟨some ⟨9, false⟩, [⟨1, false⟩, ⟨2, false⟩], 1⟩) ⟨9, true⟩
        = (true,
           (BA.initWatchC ⟨[], 0, [], none⟩
             (.card ⟨some ⟨9, false⟩, [⟨1, false⟩, ⟨2, false⟩], 1⟩) (!(⟨9, true⟩ : BA.Literal).sign)).1,
           (BA.initWatchC ⟨[], 0, [], none⟩
             (.card ⟨some ⟨9, false⟩, [⟨1, false⟩, ⟨2, false⟩], 1⟩) (!(⟨9, true⟩ : BA.Literal).sign)).2.1)) :=
  ⟨(C10_reified_propagate_gate ⟨[], 0, [], none⟩
      (.card ⟨some ⟨9, false⟩, [⟨1, false⟩, ⟨2, false⟩], 1⟩) ⟨5, false⟩ ⟨9, false⟩ rfl).1,
   (C10_reified_propagate_gate ⟨[], 0, [], none⟩
      (.card ⟨some ⟨9, false⟩, [⟨1, false⟩, ⟨2, false⟩], 1⟩) ⟨9, true⟩ ⟨9, false⟩ rfl).2⟩

/-- **C5** (counterexample to the claim as stated): `add_pb_ge` *does* raise
an exception when the clipped coefficient sum of the new pb overflows `u32`:
the `pb` constructor's `update_max_sum` throws `default_exception` when
`m_max_sum + w` wraps (here `2^31 + 2^31 ≡ 0 (mod 2^32)`). -/
theorem C5_add_pb_ge_counterexample :
    BA.addPbGe none [(2 ^ 31, ⟨1, false⟩), (2 ^ 31, ⟨2, false⟩), (2, ⟨3, false⟩)]
        (2 ^ 32 - 1) false
      = .error "addition of pb coefficients overflows" := by
  rfl

/-- **C5** (amended): `add_pb_ge` reports its result in-band as a constraint
handle or null whenever the sum of the clipped coefficients `min(k, aᵢ)`
fits in the unsigned 32-bit range; when that sum overflows `u32` and the
constraint is materialized as a pb, the constructor raises an exception
instead. -/
theorem C5_add_pb_ge_in_band (lit : Option BA.Literal) (wlits : List BA.WLiteral)
    (k : Nat) (learned : Bool)
    (h : ((wlits.map (fun wl => min k wl.1)).sum) ≤ 2 ^ 32 - 1) :
    ∃ r, BA.addPbGe lit wlits k learned = .ok r := by
  unfold BA.addPbGe
  by_cases h1 : k = 0 ∧ lit = none
  · rw [if_pos h1]
    exact ⟨none, rfl⟩
  · rw [if_neg h1]
    by_cases h2 : (wlits.all (fun wl => wl.1 == 1)) = true ∨ k = 1
    · rw [if_pos h2]
      exact ⟨_, rfl⟩
    · rw [if_neg h2]
      obtain ⟨res, hres⟩ := BA.updateMaxSumGo_ok k wlits 0 (by omega)
      refine ⟨some (.pb ⟨lit, res.1, k, 0, 0, res.2⟩), ?_⟩
      unfold BA.mkPB
      rw [hres]
      rfl

/-- Witness for C5 at `2x1 + 3x2 ≥ 4` (clipped sum `2 + 3 = 5` fits). -/
theorem C5_add_pb_ge_in_band_witness :
    (([(2, ⟨1, false⟩), (3, ⟨2, false⟩)] : List BA.WLiteral).map
        (fun wl => min 4 wl.1)).sum ≤ 2 ^ 32 - 1 ∧
    ∃ r, BA.addPbGe none [(2, ⟨1, false⟩), (3, ⟨2, false⟩)] 4 false = .ok r :=
  ⟨by decide,
   C5_add_pb_ge_in_band none [(2, ⟨1, false⟩), (3, ⟨2, false⟩)] 4 false (by decide)⟩

/-- **C3** (counterexample to the claim as stated): on the resolvent
`2v0 + 2v1 + 2v2 ≥ 3` with all three variables unassigned, the cardinality
reduction (`k = 2`) is not asserting (`slack = 3 ≥ 2`), and `active2card`
emits *nothing* — the pb fallback `active2constraint()` of the source sits
behind `#if 0`, so no pb constraint is produced. -/
theorem C3_active2card_counterexample :
    BA.a2cK ⟨[(0, 2), (1, 2), (2, 2)], [0, 1, 2], 3, false⟩ = 2 ∧
    BA.a2cSlack ⟨[], 0, [], none⟩ ⟨[(0, 2), (1, 2), (2, 2)], [0, 1, 2], 3, false⟩ = 3 ∧
    (BA.active2card ⟨[], 0, [], none⟩ ⟨[(0, 2), (1, 2), (2, 2)], [0, 1, 2], 3, false⟩).1
      = none := by
  refine ⟨by decide, by decide, ?_⟩
  decide

/-- **C3** (amended): after conflict resolution, `active2card` sorts the
weighted literals of the accumulated inequality in descending weight order
and selects as the cardinality threshold `k` the length of the smallest
prefix whose weight sum reaches the bound `B`, producing a learned
cardinality constraint with that threshold over a prefix of the sorted
literals (a maximal tail whose weights cannot reach the bound is dropped);
when the resulting cardinality reduction is not asserting (its slack is at
least `k`) — or when `k = 1` — no constraint at all is emitted (the pb
fallback is disabled in the source). -/
theorem C3_active2card_selection (st : BA.PState) (rs : BA.RState)
    (hnd : rs.activeVars.Nodup)
    (hr : ∀ v ∈ rs.activeVars, (BA.getc rs.coeffs v).natAbs ≤ 2 ^ 31 - 1)
    (hov : rs.overflow = false) :
    ((BA.a2cSorted rs).Sorted (fun a b => b.1 ≤ a.1)) ∧
    (rs.bound ≤ BA.sumW (BA.a2cSorted rs) →
      rs.bound ≤ BA.sumW ((BA.a2cSorted rs).take (BA.a2cK rs)) ∧
      (∀ m, m < BA.a2cK rs → BA.sumW ((BA.a2cSorted rs).take m) < rs.bound)) ∧
    ((BA.a2cTrimmed rs) <+: (BA.a2cSorted rs)) ∧
    (BA.a2cSlack st rs ≥ BA.a2cK rs → (BA.active2card st rs).1 = none) ∧
    (BA.a2cK rs ≠ 1 → BA.a2cSlack st rs < BA.a2cK rs →
      (BA.active2card st rs).1
        = some (.card ⟨none, (BA.a2cTrimmed rs).map (·.2), BA.a2cK rs⟩)) := by
  have heq := BA.active2card_eq st rs hnd hr hov
  refine ⟨?_, ?_, BA.a2cTrimmed_prefix rs, ?_, ?_⟩
  · unfold BA.a2cSorted
    exact BA.sortDesc_sorted _
  · intro hb
    have hb0 : (BA.normalizeActiveCoeffs rs).bound ≤ 0 + BA.sumW (BA.a2cSorted rs) := by
      have : (BA.normalizeActiveCoeffs rs).bound = rs.bound := rfl
      omega
    obtain ⟨n, hn, he, hge, hlt⟩ :=
      BA.selectKGo_least (BA.normalizeActiveCoeffs rs).bound (BA.a2cSorted rs) 0 0 0 hb0
    have hkn : BA.a2cK rs = n := by
      unfold BA.a2cK
      rw [he]
      omega
    constructor
    · rw [hkn]
      have : (BA.normalizeActiveCoeffs rs).bound = rs.bound := rfl
      omega
    · intro m hm
      have := hlt m (by omega)
      have hbb : (BA.normalizeActiveCoeffs rs).bound = rs.bound := rfl
      omega
  · intro hs
    rw [heq]
    by_cases hk : BA.a2cK rs = 1
    · rw [if_pos hk]
    · rw [if_neg hk, if_pos hs]
  · intro hk hs
    rw [heq]
    rw [if_neg hk, if_neg (by omega)]
    unfold BA.addAtLeast
    rw [if_neg (by
      rintro ⟨h1, _⟩
      exact hk h1)]

/-- Witness for C3 on `2v0 + 2v1 + 2v2 ≥ 3` with `v0, v1` assigned false:
`k = 2`, slack `1 < 2`, and the asserting card `v0 + v1 + v2 ≥ 2` is
emitted. -/
theorem C3_active2card_selection_witness :
    ((BA.a2cSorted ⟨[(0, 2), (1, 2), (2, 2)], [0, 1, 2], 3, false⟩).Sorted
        (fun a b => b.1 ≤ a.1)) ∧
    ((3 : Nat) ≤ BA.sumW (BA.a2cSorted ⟨[(0, 2), (1, 2), (2, 2)], [0, 1, 2], 3, false⟩) →
      (3 : Nat) ≤ BA.sumW ((BA.a2cSorted ⟨[(0, 2), (1, 2), (2, 2)], [0, 1, 2], 3, false⟩).take
        (BA.a2cK ⟨[(0, 2), (1, 2), (2, 2)], [0, 1, 2], 3, false⟩)) ∧
      (∀ m, m < BA.a2cK ⟨[(0, 2), (1, 2), (2, 2)], [0, 1, 2], 3, false⟩ →
        BA.sumW ((BA.a2cSorted ⟨[(0, 2), (1, 2), (2, 2)], [0, 1, 2], 3, false⟩).take m) < 3)) ∧
    ((BA.a2cTrimmed ⟨[(0, 2), (1, 2), (2, 2)], [0, 1, 2], 3, false⟩)
      <+: (BA.a2cSorted ⟨[(0, 2), (1, 2), (2, 2)], [0, 1, 2], 3, false⟩)) ∧
    (BA.a2cSlack ⟨[(0, false, 2), (1, false, 2)], 2, [], none⟩
        ⟨[(0, 2), (1, 2), (2, 2)], [0, 1, 2], 3, false⟩
      ≥ BA.a2cK ⟨[(0, 2), (1, 2), (2, 2)], [0, 1, 2], 3, false⟩ →
      (BA.active2card ⟨[(0, false, 2), (1, false, 2)], 2, [], none⟩
        ⟨[(0, 2), (1, 2), (2, 2)], [0, 1, 2], 3, false⟩).1 = none) ∧
    (BA.a2cK ⟨[(0, 2), (1, 2), (2, 2)], [0, 1, 2], 3, false⟩ ≠ 1 →
      BA.a2cSlack ⟨[(0, false, 2), (1, false, 2)], 2, [], none⟩
        ⟨[(0, 2), (1, 2), (2, 2)], [0, 1, 2], 3, false⟩
        < BA.a2cK ⟨[(0, 2), (1, 2), (2, 2)], [0, 1, 2], 3, false⟩ →
      (BA.active2card ⟨[(0, false, 2), (1, false, 2)], 2, [], none⟩
        ⟨[(0, 2), (1, 2), (2, 2)], [0, 1, 2], 3, false⟩).1
        = some (.card ⟨none,
            (BA.a2cTrimmed ⟨[(0, 2), (1, 2), (2, 2)], [0, 1, 2], 3, false⟩).map (·.2),
            BA.a2cK ⟨[(0, 2), (1, 2), (2, 2)], [0, 1, 2], 3, false⟩⟩)) :=
  C3_active2card_selection ⟨[(0, false, 2), (1, false, 2)], 2, [], none⟩
    ⟨[(0, 2), (1, 2), (2, 2)], [0, 1, 2], 3, false⟩
    (by decide) (by decide) (by decide)

/-- **C9**: whenever the count of extension propagations since the last pop
is zero, `resolve_conflict` returns `l_undef` immediately, performing no
resolution step and leaving the solver state and the resolver scratchpad
(coefficients, active variables, bound, marks) untouched. -/
theorem C9_resolve_conflict_noop (sv : BA.RSolver) (rs : BA.RState)
    (h : sv.numPropSincePop = 0) :
    BA.resolveConflict sv rs = (.lundef, sv, rs, false) := by
  unfold BA.resolveConflict
  rw [if_pos h]

/-- Witness for C9 on a state with a dirty scratchpad and a stale mark:
everything is returned unchanged. -/
theorem C9_resolve_conflict_noop_witness :
    BA.svGuard.numPropSincePop = 0 ∧
    BA.resolveConflict BA.svGuard BA.rsGuard = (.lundef, BA.svGuard, BA.rsGuard, false) :=
  ⟨rfl, C9_resolve_conflict_noop BA.svGuard BA.rsGuard rfl⟩

namespace BA

theorem sameButMarks_refl (a : RSolver) : sameButMarks a a :=
  ⟨rfl, rfl, rfl, rfl, rfl, rfl, rfl, rfl, rfl, rfl⟩

theorem sameButMarks_trans {a b c : RSolver} :
    sameButMarks a b → sameButMarks b c → sameButMarks a c := by
  intro h1 h2
  obtain ⟨t1, j1, p1, c1, l1, o1, n1, f1, np1, cc1⟩ := h1
  obtain ⟨t2, j2, p2, c2, l2, o2, n2, f2, np2, cc2⟩ := h2
  exact ⟨t1.trans t2, j1.trans j2, p1.trans p2, c1.trans c2, l1.trans l2,
    o1.trans o2, n1.trans n2, f1.trans f2, np1.trans np2, cc1.trans cc2⟩

theorem StepOK_refl (vs : List Nat) (sv : RSolver) (n : Nat) : StepOK vs sv n sv n :=
  ⟨sameButMarks_refl sv, fun _ hv => Or.inl hv, id, id⟩

theorem StepOK_trans {vs : List Nat} {sv sv' sv'' : RSolver} {n n' n'' : Nat} :
    StepOK vs sv n sv' n' → StepOK vs sv' n' sv'' n'' → StepOK vs sv n sv'' n'' := by
  intro h1 h2
  obtain ⟨s1, m1, d1, y1⟩ := h1
  obtain ⟨s2, m2, d2, y2⟩ := h2
  refine ⟨sameButMarks_trans s2 s1, ?_, fun h => d2 (d1 h), fun h => y2 (y1 h)⟩
  intro v hv
  rcases m2 v hv with h | h
  · exact m1 v h
  · exact Or.inr h

theorem StepOK_mono {vs vs' : List Nat} {sv sv' : RSolver} {n n' : Nat}
    (hsub : ∀ v ∈ vs, v ∈ vs') : StepOK vs sv n sv' n' → StepOK vs' sv n sv' n' := by
  intro h
  obtain ⟨s1, m1, d1, y1⟩ := h
  refine ⟨s1, ?_, d1, y1⟩
  intro v hv
  rcases m1 v hv with h | h
  · exact Or.inl h
  · exact Or.inr (hsub v h)

theorem processAntecedent_StepOK (sv : RSolver) (rs : RState)
    (n cl : Nat) (l : Literal) (off : Nat) :
    StepOK [l.var] sv n (processAntecedent sv rs n cl l off).1
      (processAntecedent sv rs n cl l off).2.2 := by
  simp only [processAntecedent]
  by_cases h : 0 < sv.ps.lvl l ∧ ¬ sv.marks.contains l.var ∧ sv.ps.lvl l = cl
  · rw [if_pos h]
    refine ⟨⟨rfl, rfl, rfl, rfl, rfl, rfl, rfl, rfl, rfl, rfl⟩, ?_, ?_, ?_⟩
    · intro v hv
      rcases List.mem_cons.1 hv with h1 | h1
      · exact Or.inr (by simp [h1])
      · exact Or.inl h1
    · intro hnd
      refine List.Nodup.cons ?_ hnd
      intro hmem
      exact h.2.1 (List.elem_eq_true_of_mem hmem)
    · intro hs
      simp [hs]
  · rw [if_neg h]
    exact StepOK_refl _ sv n

end BA

namespace BA

theorem foldPA_StepOK (cl off : Nat) (ls : List Literal) :
    ∀ (a : RSolver × RState × Nat),
    StepOK (ls.map (fun l => l.var)) a.1 a.2.2
      (ls.foldl (fun (b : RSolver × RState × Nat) l =>
        processAntecedent b.1 b.2.1 b.2.2 cl l off) a).1
      (ls.foldl (fun (b : RSolver × RState × Nat) l =>
        processAntecedent b.1 b.2.1 b.2.2 cl l off) a).2.2 := by
  induction ls with
  | nil => intro a; exact StepOK_refl _ _ _
  | cons l t ih =>
    intro a
    rw [List.foldl_cons]
    refine StepOK_trans (StepOK_mono ?_ (processAntecedent_StepOK a.1 a.2.1 a.2.2 cl l off))
      (StepOK_mono ?_ (ih (processAntecedent a.1 a.2.1 a.2.2 cl l off)))
    · intro v hv; simp only [List.map_cons, List.mem_cons]; simp at hv; exact Or.inl hv
    · intro v hv; simp only [List.map_cons, List.mem_cons]; exact Or.inr hv

theorem foldPAneg_StepOK (cl off : Nat) (ls : List Literal) :
    ∀ (a : RSolver × RState × Nat),
    StepOK (ls.map (fun l => l.var)) a.1 a.2.2
      (ls.foldl (fun (b : RSolver × RState × Nat) l =>
        processAntecedent b.1 b.2.1 b.2.2 cl l.neg off) a).1
      (ls.foldl (fun (b : RSolver × RState × Nat) l =>
        processAntecedent b.1 b.2.1 b.2.2 cl l.neg off) a).2.2 := by
  induction ls with
  | nil => intro a; exact StepOK_refl _ _ _
  | cons l t ih =>
    intro a
    rw [List.foldl_cons]
    refine StepOK_trans (StepOK_mono ?_ (processAntecedent_StepOK a.1 a.2.1 a.2.2 cl l.neg off))
      (StepOK_mono ?_ (ih (processAntecedent a.1 a.2.1 a.2.2 cl l.neg off)))
    · intro v hv; simp only [List.map_cons, List.mem_cons]; simp at hv; exact Or.inl hv
    · intro v hv; simp only [List.map_cons, List.mem_cons]; exact Or.inr hv

theorem foldIC_fixed (off : Nat) (ls : List Literal) :
    ∀ (a : RSolver × RState × Nat),
    (ls.foldl (fun (b : RSolver × RState × Nat) l =>
      (b.1, incCoeff b.2.1 l off, b.2.2)) a).1 = a.1 ∧
    (ls.foldl (fun (b : RSolver × RState × Nat) l =>
      (b.1, incCoeff b.2.1 l off, b.2.2)) a).2.2 = a.2.2 := by
  induction ls with
  | nil => intro a; exact ⟨rfl, rfl⟩
  | cons l t ih =>
    intro a
    rw [List.foldl_cons]
    exact ih (a.1, incCoeff a.2.1 l off, a.2.2)

theorem processCard_StepOK (sv : RSolver) (rs : RState) (n cl : Nat)
    (c : Card) (off : Nat) :
    StepOK ((c.lits.map (fun l => l.var)) ++
        (match c.lit with | some l => [l.var] | none => []))
      sv n (processCard sv rs n cl c off).1 (processCard sv rs n cl c off).2.2 := by
  simp only [processCard]
  have h1 := foldPA_StepOK cl off (c.lits.drop c.k) (sv, rs, n)
  have h1m : StepOK ((c.lits.map (fun l => l.var)) ++
      (match c.lit with | some l => [l.var] | none => []))
      sv n ((c.lits.drop c.k).foldl (fun (b : RSolver × RState × Nat) l =>
        processAntecedent b.1 b.2.1 b.2.2 cl l off) (sv, rs, n)).1
      ((c.lits.drop c.k).foldl (fun (b : RSolver × RState × Nat) l =>
        processAntecedent b.1 b.2.1 b.2.2 cl l off) (sv, rs, n)).2.2 := by
    refine StepOK_mono ?_ h1
    intro v hv
    refine List.mem_append_left _ ?_
    obtain ⟨l, hl, hlv⟩ := List.mem_map.1 hv
    exact List.mem_map.2 ⟨l, List.drop_subset _ _ hl, hlv⟩
  set acc1 := (c.lits.drop c.k).foldl (fun (b : RSolver × RState × Nat) l =>
    processAntecedent b.1 b.2.1 b.2.2 cl l off) (sv, rs, n) with hacc1
  have h2 := foldIC_fixed off (c.lits.take c.k) acc1
  set acc2 := (c.lits.take c.k).foldl (fun (b : RSolver × RState × Nat) l =>
    (b.1, incCoeff b.2.1 l off, b.2.2)) acc1 with hacc2
  have h2ok : StepOK ((c.lits.map (fun l => l.var)) ++
      (match c.lit with | some l => [l.var] | none => []))
      sv n acc2.1 acc2.2.2 := by
    rw [h2.1, h2.2]; exact h1m
  rcases hcl : c.lit with _ | lt
  · simp only [hcl] at h2ok ⊢
    exact h2ok
  · simp only [hcl] at h2ok ⊢
    by_cases hov : off * c.k > 2 ^ 32 - 1
    · rw [if_pos hov]
      exact h2ok
    · rw [if_neg hov]
      refine StepOK_trans h2ok (StepOK_mono ?_
        (processAntecedent_StepOK acc2.1 acc2.2.1 acc2.2.2 cl lt.neg (off * c.k)))
      intro v hv
      simp only [List.mem_singleton] at hv
      subst hv
      simp only [Literal.neg_var]
      exact List.mem_append_right _ (by simp)

end BA

namespace BA

theorem pbAnts_fold1_vars (st : PState) (k : Nat) (lcon : Literal) (wls : List WLiteral) :
    ∀ (acc : Nat × List Literal) (x : Literal),
    x ∈ (wls.foldl (fun (acc : Nat × List Literal) wl =>
      if wl.2 ≠ lcon ∧ st.value wl.2 = .lfalse then
        if acc.1 + wl.1 < k then (acc.1 + wl.1, acc.2)
        else (acc.1, acc.2 ++ [wl.2.neg])
      else acc) acc).2 →
    x ∈ acc.2 ∨ ∃ wl ∈ wls, x = wl.2.neg := by
  induction wls with
  | nil => intro acc x hx; exact Or.inl hx
  | cons wl t ih =>
    intro acc x hx
    rw [List.foldl_cons] at hx
    by_cases h1 : wl.2 ≠ lcon ∧ st.value wl.2 = .lfalse
    · rw [if_pos h1] at hx
      by_cases h2 : acc.1 + wl.1 < k
      · rw [if_pos h2] at hx
        rcases ih _ x hx with h | ⟨wl', hw, he⟩
        · exact Or.inl h
        · exact Or.inr ⟨wl', List.mem_cons_of_mem _ hw, he⟩
      · rw [if_neg h2] at hx
        rcases ih _ x hx with h | ⟨wl', hw, he⟩
        · rcases List.mem_append.1 h with h | h
          · exact Or.inl h
          · exact Or.inr ⟨wl, List.mem_cons_self _ _, by simpa using h⟩
        · exact Or.inr ⟨wl', List.mem_cons_of_mem _ hw, he⟩
    · rw [if_neg h1] at hx
      rcases ih _ x hx with h | ⟨wl', hw, he⟩
      · exact Or.inl h
      · exact Or.inr ⟨wl', List.mem_cons_of_mem _ hw, he⟩

theorem pbAnts_fold2_vars (wlits : List WLiteral) (k : Nat) (idxs : List Nat) :
    ∀ (acc : Nat × List Literal) (x : Literal),
    x ∈ (idxs.foldl (fun (acc : Nat × List Literal) idx =>
      let wl := nthW wlits idx
      if acc.1 + wl.1 < k then (acc.1 + wl.1, acc.2)
      else (acc.1, acc.2 ++ [wl.2.neg])) acc).2 →
    x ∈ acc.2 ∨ ∃ i ∈ idxs, x = (nthW wlits i).2.neg := by
  induction idxs with
  | nil => intro acc x hx; exact Or.inl hx
  | cons i t ih =>
    intro acc x hx
    rw [List.foldl_cons] at hx
    by_cases h2 : acc.1 + (nthW wlits i).1 < k
    · simp only [if_pos h2] at hx
      rcases ih _ x hx with h | ⟨i', hw, he⟩
      · exact Or.inl h
      · exact Or.inr ⟨i', List.mem_cons_of_mem _ hw, he⟩
    · simp only [if_neg h2] at hx
      rcases ih _ x hx with h | ⟨i', hw, he⟩
      · rcases List.mem_append.1 h with h | h
        · exact Or.inl h
        · exact Or.inr ⟨i, List.mem_cons_self _ _, by simpa using h⟩
      · exact Or.inr ⟨i', List.mem_cons_of_mem _ hw, he⟩

theorem nthW_mem (ls : List WLiteral) (i : Nat) (h : i < ls.length) :
    nthW ls i ∈ ls := by
  rw [nthW, List.getD_eq_getElem ls _ h]
  exact List.getElem_mem h

theorem pbAntecedents_vars (st : PState) (p : PB) (l : Literal) :
    ∀ x ∈ pbAntecedents st p l,
    x.var ∈ (p.wlits.map (fun wl => wl.2.var)) ++
      (match p.lit with | some lt => [lt.var] | none => []) := by
  intro x hx
  have hr0 : ∀ y ∈ (match p.lit with | some lt => ([lt] : List Literal) | none => []),
      y.var ∈ (p.wlits.map (fun wl => wl.2.var)) ++
        (match p.lit with | some lt => [lt.var] | none => []) := by
    intro y hy
    rcases hpl : p.lit with _ | lt
    · rw [hpl] at hy; exact absurd hy (List.not_mem_nil y)
    · rw [hpl] at hy
      simp only [List.mem_singleton] at hy
      subst hy
      exact List.mem_append_right _ (by simp)
  rw [pbAntecedents] at hx
  by_cases hval : st.value l = .lfalse
  · rw [if_pos hval] at hx
    rcases pbAnts_fold1_vars st p.k l p.wlits _ x hx with h | ⟨wl, hw, he⟩
    · exact hr0 x h
    · subst he
      simp only [Literal.neg_var]
      exact List.mem_append_left _ (List.mem_map.2 ⟨wl, hw, rfl⟩)
  · rw [if_neg hval] at hx
    simp only at hx
    rcases pbAnts_fold2_vars p.wlits p.k _ _ x hx with h | ⟨i, hi, he⟩
    · exact hr0 x h
    · subst he
      simp only [Literal.neg_var]
      have hilen : i < p.wlits.length := by
        have := List.mem_range'.1 hi
        omega
      exact List.mem_append_left _ (List.mem_map.2 ⟨nthW p.wlits i, nthW_mem _ _ hilen, rfl⟩)

end BA

namespace BA

theorem optLit_map_var (o : Option Literal) :
    ((match o with | some l => ([l] : List Literal) | none => []) :
        List Literal).map (fun l => l.var) =
    (match o with | some l => [l.var] | none => ([] : List Nat)) := by
  rcases o with _ | l
  · rfl
  · rfl

theorem processJust_StepOK (sv : RSolver) (rs : RState) (n cl : Nat)
    (consequent : Option Literal) (js : Justification) (off : Nat) :
    StepOK (justVars sv js) sv n (processJust sv rs n cl consequent js off).1
      (processJust sv rs n cl consequent js off).2.2 := by
  cases js with
  | jnone => exact StepOK_refl _ _ _
  | binary l =>
    simp only [processJust, justVars, justLitsView, List.map_cons, List.map_nil]
    exact processAntecedent_StepOK sv _ n cl l off
  | ternary l1 l2 =>
    simp only [processJust, justVars, justLitsView, List.map_cons, List.map_nil]
    refine StepOK_trans (StepOK_mono ?_ (processAntecedent_StepOK sv _ n cl l1 off))
      (StepOK_mono ?_ (processAntecedent_StepOK _ _ _ cl l2 off))
    · intro v hv; simp only [List.mem_singleton] at hv; simp [hv]
    · intro v hv; simp only [List.mem_singleton] at hv; simp [hv]
  | clause cls =>
    simp only [processJust, justVars, justLitsView]
    rcases consequent with _ | co
    · simp only
      exact foldPA_StepOK cl off cls (sv, _, n)
    · simp only
      by_cases hc0 : cls.get? 0 = some co
      · rw [if_pos hc0]
        refine StepOK_mono ?_ (foldPA_StepOK cl off (cls.drop 1) (sv, _, n))
        intro v hv
        obtain ⟨l, hl, hlv⟩ := List.mem_map.1 hv
        exact List.mem_map.2 ⟨l, List.drop_subset _ _ hl, hlv⟩
      · rw [if_neg hc0]
        rcases hg : cls.get? 0 with _ | l0
        · simp only
          refine StepOK_mono ?_ (foldPA_StepOK cl off (cls.drop 2) (sv, _, n))
          intro v hv
          obtain ⟨l, hl, hlv⟩ := List.mem_map.1 hv
          exact List.mem_map.2 ⟨l, List.drop_subset _ _ hl, hlv⟩
        · simp only
          refine StepOK_trans (StepOK_mono ?_ (processAntecedent_StepOK sv _ n cl l0 off))
            (StepOK_mono ?_ (foldPA_StepOK cl off (cls.drop 2) _))
          · intro v hv
            simp only [List.mem_singleton] at hv
            subst hv
            exact List.mem_map.2 ⟨l0, List.get?_mem hg, rfl⟩
          · intro v hv
            obtain ⟨l, hl, hlv⟩ := List.mem_map.1 hv
            exact List.mem_map.2 ⟨l, List.drop_subset _ _ hl, hlv⟩
  | ext i =>
    simp only [processJust, justVars, justLitsView]
    rcases hgc : sv.constraints.get? i with _ | c
    · simp only
      exact StepOK_refl _ _ _
    · rcases c with cc | pp
      · simp only
        have := processCard_StepOK sv (incBound rs ((off : Int) * (cc.k : Int))) n cl cc off
        refine StepOK_mono ?_ this
        intro v hv
        rw [List.map_append, optLit_map_var]
        exact hv
      · simp only
        rcases consequent with _ | co
        · simp only
          exact StepOK_refl _ _ _
        · simp only
          refine StepOK_mono ?_ (foldPAneg_StepOK cl off (pbAntecedents sv.ps pp co) (sv, _, n))
          intro v hv
          obtain ⟨l, hl, hlv⟩ := List.mem_map.1 hv
          have := pbAntecedents_vars sv.ps pp co l hl
          rw [List.map_append, List.map_map, optLit_map_var]
          rw [← hlv]
          convert this using 3

end BA

namespace BA

theorem findMarked_none_spec (sv : RSolver) :
    ∀ idx, findMarked sv idx = none →
    ∀ p, p ≤ idx → sv.marks.contains (nth sv.trail p).var = false := by
  intro idx
  induction idx with
  | zero =>
    intro h p hp
    interval_cases p
    rw [findMarked] at h
    by_cases hc : sv.marks.contains (nth sv.trail 0).var
    · rw [if_pos hc] at h; exact absurd h (by simp)
    · simpa using hc
  | succ i ih =>
    intro h p hp
    rw [findMarked] at h
    by_cases hc : sv.marks.contains (nth sv.trail (i + 1)).var
    · rw [if_pos hc] at h; exact absurd h (by simp)
    · rw [if_neg hc] at h
      rcases Nat.lt_or_ge p (i + 1) with hlt | hge
      · exact ih h p (by omega)
      · have : p = i + 1 := by omega
        subst this
        simpa using hc

theorem findMarked_some_spec (sv : RSolver) :
    ∀ idx pos, findMarked sv idx = some pos →
    pos ≤ idx ∧ sv.marks.contains (nth sv.trail pos).var = true ∧
    (∀ q, pos < q → q ≤ idx → sv.marks.contains (nth sv.trail q).var = false) := by
  intro idx
  induction idx with
  | zero =>
    intro pos h
    rw [findMarked] at h
    by_cases hc : sv.marks.contains (nth sv.trail 0).var
    · rw [if_pos hc] at h
      have : pos = 0 := by simpa using h.symm
      subst this
      exact ⟨Nat.le_refl 0, by simpa using hc, fun q hq hq2 => by omega⟩
    · rw [if_neg hc] at h; exact absurd h (by simp)
  | succ i ih =>
    intro pos h
    rw [findMarked] at h
    by_cases hc : sv.marks.contains (nth sv.trail (i + 1)).var
    · rw [if_pos hc] at h
      have : pos = i + 1 := by simpa using h.symm
      subst this
      exact ⟨Nat.le_refl _, by simpa using hc, fun q hq hq2 => by omega⟩
    · rw [if_neg hc] at h
      obtain ⟨h1, h2, h3⟩ := ih pos h
      refine ⟨by omega, h2, ?_⟩
      intro q hq hq2
      rcases Nat.lt_or_ge q (i + 1) with hlt | hge
      · exact h3 q hq (by omega)
      · have : q = i + 1 := by omega
        subst this
        simpa using hc

theorem bailClean_zero (sv : RSolver) : ∀ idx, bailClean sv 0 idx = (sv, 0) := by
  intro idx
  cases idx with
  | zero => rw [bailClean]; rw [if_pos rfl]
  | succ i => rw [bailClean]; rw [if_pos rfl]

theorem bailClean_clears : ∀ (idx : Nat) (sv : RSolver) (numMarks : Nat),
    sv.marks.Nodup → numMarks = sv.marks.length →
    (∀ v ∈ sv.marks, ∃ p, p ≤ idx ∧ (nth sv.trail p).var = v) →
    (bailClean sv numMarks idx).1.marks = [] ∧
    sameButMarks (bailClean sv numMarks idx).1 sv := by
  intro idx
  induction idx with
  | zero =>
    intro sv numMarks hnd hsync hpos
    rw [bailClean]
    by_cases h0 : numMarks = 0
    · rw [if_pos h0]
      refine ⟨?_, sameButMarks_refl sv⟩
      rw [h0] at hsync
      exact List.length_eq_zero.1 hsync.symm
    · rw [if_neg h0]
      have hall : ∀ v ∈ sv.marks, v = (nth sv.trail 0).var := by
        intro v hv
        obtain ⟨p, hp, he⟩ := hpos v hv
        interval_cases p
        exact he.symm
      have hne : sv.marks ≠ [] := by
        intro he
        rw [he] at hsync
        simp at hsync
        exact h0 hsync
      obtain ⟨a, t, ht⟩ := List.exists_cons_of_ne_nil hne
      have hsingle : sv.marks = [(nth sv.trail 0).var] := by
        rw [ht]
        have ha : a = (nth sv.trail 0).var := hall a (by rw [ht]; exact List.mem_cons_self _ _)
        have htnil : t = [] := by
          rcases t with _ | ⟨b, t'⟩
          · rfl
          · exfalso
            have hb : b = (nth sv.trail 0).var :=
              hall b (by rw [ht]; exact List.mem_cons_of_mem _ (List.mem_cons_self _ _))
            have : a ∉ (b :: t') := by
              rw [ht] at hnd
              exact (List.nodup_cons.1 hnd).1
            exact this (by rw [ha, ← hb] at *; exact List.mem_cons_self _ _)
        rw [ha, htnil]
      rw [if_pos (by rw [hsingle]; simp)]
      refine ⟨?_, ⟨rfl, rfl, rfl, rfl, rfl, rfl, rfl, rfl, rfl, rfl⟩⟩
      rw [hsingle]
      simp
  | succ i ih =>
    intro sv numMarks hnd hsync hpos
    rw [bailClean]
    by_cases h0 : numMarks = 0
    · rw [if_pos h0]
      refine ⟨?_, sameButMarks_refl sv⟩
      rw [h0] at hsync
      exact List.length_eq_zero.1 hsync.symm
    · rw [if_neg h0]
      by_cases hc : sv.marks.contains (nth sv.trail (i + 1)).var
      · rw [if_pos hc]
        have hmem : (nth sv.trail (i + 1)).var ∈ sv.marks := by simpa using hc
        have hres := ih { sv with marks := sv.marks.erase (nth sv.trail (i + 1)).var }
          (numMarks - 1) (by simpa using List.Nodup.erase _ hnd)
          (by simp only [List.length_erase_of_mem hmem]; omega)
          ?_
        · refine ⟨hres.1, sameButMarks_trans hres.2
            ⟨rfl, rfl, rfl, rfl, rfl, rfl, rfl, rfl, rfl, rfl⟩⟩
        · intro v hv
          simp only at hv
          have hvm : v ∈ sv.marks := List.mem_of_mem_erase hv
          obtain ⟨p, hp, he⟩ := hpos v hvm
          rcases Nat.lt_or_ge p (i + 1) with hlt | hge
          · exact ⟨p, by omega, he⟩
          · exfalso
            have : p = i + 1 := by omega
            subst this
            have hveq : v = (nth sv.trail (i + 1)).var := he.symm
            rw [hveq] at hv
            exact (List.Nodup.not_mem_erase hnd) hv
      · rw [if_neg hc]
        refine ih sv numMarks hnd hsync ?_
        intro v hv
        obtain ⟨p, hp, he⟩ := hpos v hv
        rcases Nat.lt_or_ge p (i + 1) with hlt | hge
        · exact ⟨p, by omega, he⟩
        · exfalso
          have : p = i + 1 := by omega
          subst this
          rw [he] at hc
          exact hc (List.elem_eq_true_of_mem hv)

end BA

namespace BA

theorem justOf_congr {a b : RSolver} (h : a.just = b.just) (v : Nat) :
    justOf a v = justOf b v := by
  rw [justOf, justOf, h]

theorem justLitsView_congr {a b : RSolver} (h : a.constraints = b.constraints)
    (js : Justification) : justLitsView a js = justLitsView b js := by
  cases js with
  | jnone => rfl
  | binary l => rfl
  | ternary l1 l2 => rfl
  | clause cls => rfl
  | ext i => rw [justLitsView, justLitsView, h]

theorem justVars_congr {a b : RSolver} (h : a.constraints = b.constraints)
    (js : Justification) : justVars a js = justVars b js := by
  rw [justVars, justVars, justLitsView_congr h]

theorem wf_of_sameButMarks {a b : RSolver} (h : sameButMarks a b) :
    WfSolver b → WfSolver a := by
  intro hwf
  obtain ⟨ht, hj, _, hc, _, _, hn, hf, _, _⟩ := h
  obtain ⟨w1, w2, w3⟩ := hwf
  refine ⟨?_, ?_, ?_⟩
  · intro i hi v hv
    rw [ht] at hi
    rw [ht, justVars_congr hc, justOf_congr hj] at hv
    obtain ⟨p, hp, he⟩ := w1 i hi v hv
    exact ⟨p, hp, by rw [ht]; exact he⟩
  · intro v hv
    rw [justVars_congr hc, hf] at hv
    obtain ⟨p, hp, he⟩ := w2 v hv
    exact ⟨p, by rw [ht]; exact hp, by rw [ht]; exact he⟩
  · intro l hl
    rw [hn] at hl
    obtain ⟨p, hp, he⟩ := w3 l hl
    exact ⟨p, by rw [ht]; exact hp, by rw [ht]; exact he⟩

theorem createAssertingLemma_fields (sv : RSolver) : ∀ (fuel : Nat) (rs : RState) (lvl : Nat),
    (createAssertingLemma sv rs lvl fuel).2.1.trail = sv.trail ∧
    (createAssertingLemma sv rs lvl fuel).2.1.learned = sv.learned ∧
    (createAssertingLemma sv rs lvl fuel).2.1.marks = sv.marks ∧
    (createAssertingLemma sv rs lvl fuel).2.1.outLemma = sv.outLemma := by
  intro fuel
  induction fuel with
  | zero => intro rs lvl; exact ⟨rfl, rfl, rfl, rfl⟩
  | succ f ih =>
    intro rs lvl
    rw [createAssertingLemma]
    simp only
    by_cases h1 : (0 : Int) ≤ (calScan sv lvl rs.activeVars
        ((calSlack rs rs.activeVars (-(rs.bound : Int))).2,
         (calSlack rs rs.activeVars (-(rs.bound : Int))).1, none, 0, [])).2.1
    · rw [if_pos h1]
      exact ⟨rfl, rfl, rfl, rfl⟩
    · rw [if_neg h1]
      rcases hl0 : (calScan sv lvl rs.activeVars
          ((calSlack rs rs.activeVars (-(rs.bound : Int))).2,
           (calSlack rs rs.activeVars (-(rs.bound : Int))).1, none, 0, [])).2.2.1 with _ | l0
      · simp only [hl0]
        by_cases he : (calScan sv lvl rs.activeVars
            ((calSlack rs rs.activeVars (-(rs.bound : Int))).2,
             (calSlack rs rs.activeVars (-(rs.bound : Int))).1, none, 0, [])).2.2.2.2.isEmpty
        · rw [if_pos he]
          exact ⟨rfl, rfl, rfl, rfl⟩
        · rw [if_neg he]
          exact ih _ _
      · simp only [hl0]
        refine ⟨?_, ?_, ?_, ?_⟩ <;> trivial

theorem active2card_none_of_overflow (st : PState) (rs : RState) :
    ((active2card st rs).2).overflow = true → (active2card st rs).1 = none := by
  intro hov
  rw [active2card] at hov ⊢
  simp only at hov ⊢
  by_cases h1 : (selectKGo (buildWlits (normalizeActiveCoeffs rs)).2.bound
      (sortDesc (buildWlits (normalizeActiveCoeffs rs)).1) (0, 0, 0)).1 = 1
  · rw [if_pos h1]
  · rw [if_neg h1] at hov ⊢
    by_cases h2 : (buildWlits (normalizeActiveCoeffs rs)).2.overflow = true
    · rw [if_pos h2]
    · rw [if_neg h2] at hov ⊢
      by_cases h3 : (List.filter (fun wl => !st.value wl.2 == LBool.lfalse)
            (trimTailRev (buildWlits (normalizeActiveCoeffs rs)).2.bound
              (sortDesc (buildWlits (normalizeActiveCoeffs rs)).1).reverse
              (selectKGo (buildWlits (normalizeActiveCoeffs rs)).2.bound
                (sortDesc (buildWlits (normalizeActiveCoeffs rs)).1) (0, 0, 0)).2.2).1.reverse).length ≥
          (selectKGo (buildWlits (normalizeActiveCoeffs rs)).2.bound
            (sortDesc (buildWlits (normalizeActiveCoeffs rs)).1) (0, 0, 0)).1
      · rw [if_pos h3] at hov
        exact absurd hov (by simpa using h2)
      · rw [if_neg h3] at hov
        exact absurd hov (by simpa using h2)

end BA

namespace BA

theorem resolveStep_StepOK (sv : RSolver) (rs : RState) (nm cl : Nat)
    (co : Option Literal) (js : Justification) (off : Nat) :
    StepOK (justVars sv js) sv nm (resolveStep sv rs nm cl co js off).1
      (resolveStep sv rs nm cl co js off).2.2 := by
  rw [resolveStep]
  by_cases h : off = 0
  · rw [if_pos h]
    exact StepOK_refl _ sv nm
  · rw [if_neg h]
    exact processJust_StepOK sv rs nm cl co js off

theorem resolveLoop_inv : ∀ (fuel : Nat) (sv : RSolver) (rs : RState)
    (nm cl : Nat) (co : Option Literal) (js : Justification) (off idx : Nat),
    WfSolver sv →
    idx < sv.trail.length →
    idx + 2 ≤ fuel →
    sv.marks.Nodup →
    nm = sv.marks.length →
    (∀ v ∈ sv.marks, ∃ p, p ≤ idx ∧ (nth sv.trail p).var = v) →
    (∀ v ∈ justVars sv js, ∃ p, p ≤ idx ∧ (nth sv.trail p).var = v) →
    (∀ sv' rs' nm' idx',
      resolveLoop fuel sv rs nm cl co js off idx = .bail sv' rs' nm' idx' →
      sameButMarks sv' sv ∧ sv'.marks.Nodup ∧ nm' = sv'.marks.length ∧
      (∀ v ∈ sv'.marks, ∃ p, p ≤ idx' ∧ (nth sv'.trail p).var = v)) ∧
    (∀ sv' rs' nm' idx',
      resolveLoop fuel sv rs nm cl co js off idx = .done sv' rs' nm' idx' →
      sameButMarks sv' sv ∧ sv'.marks = [] ∧ nm' = 0) := by
  intro fuel
  induction fuel with
  | zero =>
    intro sv rs nm cl co js off idx hwf hidx hfl hnd hsync hmpos hjpos
    exact absurd hfl (by omega)
  | succ f ih =>
    intro sv rs nm cl co js off idx hwf hidx hfl hnd hsync hmpos hjpos
    by_cases hg : rs.overflow = true ∨ off > 4096
    · have hred : resolveLoop (f + 1) sv rs nm cl co js off idx = .bail sv rs nm idx := by
        rw [resolveLoop, if_pos hg]
      constructor
      · intro sv' rs' nm' idx' heq
        rw [hred] at heq
        injection heq with e1 e2 e3 e4
        subst e1; subst e3; subst e4
        exact ⟨sameButMarks_refl sv, hnd, hsync, hmpos⟩
      · intro sv' rs' nm' idx' heq
        rw [hred] at heq
        cases heq
    · obtain ⟨hsm, hsub, hndS, hsyncS⟩ := resolveStep_StepOK sv rs nm cl co js off
      set S := resolveStep sv rs nm cl co js off with hSdef
      have hndS' := hndS hnd
      have hsyncS' := hsyncS hsync
      have htrail : S.1.trail = sv.trail := hsm.1
      have hmposS : ∀ v ∈ S.1.marks, ∃ p, p ≤ idx ∧ (nth S.1.trail p).var = v := by
        intro v hv
        rcases hsub v hv with h | h
        · obtain ⟨p, hp, he⟩ := hmpos v h
          exact ⟨p, hp, by rw [htrail]; exact he⟩
        · obtain ⟨p, hp, he⟩ := hjpos v h
          exact ⟨p, hp, by rw [htrail]; exact he⟩
      rcases hfm : findMarked S.1 idx with _ | pos
      · have hred : resolveLoop (f + 1) sv rs nm cl co js off idx = .bail S.1 S.2.1 S.2.2 0 := by
          rw [resolveLoop, if_neg hg, ← hSdef, hfm]
        have hempty : S.1.marks = [] := by
          rw [List.eq_nil_iff_forall_not_mem]
          intro v hv
          obtain ⟨p, hp, he⟩ := hmposS v hv
          have := findMarked_none_spec S.1 idx hfm p hp
          rw [he] at this
          have hvc : S.1.marks.contains v = true := List.elem_eq_true_of_mem hv
          rw [this] at hvc
          cases hvc
        constructor
        · intro sv' rs' nm' idx' heq
          rw [hred] at heq
          injection heq with e1 e2 e3 e4
          subst e1; subst e3; subst e4
          refine ⟨hsm, hndS', hsyncS', ?_⟩
          intro v hv
          rw [hempty] at hv
          cases hv
        · intro sv' rs' nm' idx' heq
          rw [hred] at heq
          cases heq
      · obtain ⟨hple, hcpos, habove⟩ := findMarked_some_spec S.1 idx pos hfm
        have hv0mem : (nth S.1.trail pos).var ∈ S.1.marks := List.mem_of_elem_eq_true hcpos
        have hndE : (S.1.marks.erase (nth S.1.trail pos).var).Nodup := List.Nodup.erase _ hndS'
        have hlenE : (S.1.marks.erase (nth S.1.trail pos).var).length = S.1.marks.length - 1 :=
          List.length_erase_of_mem hv0mem
        have hposE : ∀ w ∈ S.1.marks.erase (nth S.1.trail pos).var,
            ∃ p, p < pos ∧ (nth S.1.trail p).var = w := by
          intro w hw
          have hwm : w ∈ S.1.marks := List.mem_of_mem_erase hw
          obtain ⟨p, hp, he⟩ := hmposS w hwm
          rcases Nat.lt_trichotomy p pos with hlt | heqp | hgt
          · exact ⟨p, hlt, he⟩
          · exfalso
            subst heqp
            rw [he] at hw
            exact (List.Nodup.not_mem_erase hndS') hw
          · exfalso
            have := habove p hgt hp
            rw [he] at this
            have hwc : S.1.marks.contains w = true := List.elem_eq_true_of_mem hwm
            rw [this] at hwc
            cases hwc
        have hsmE : sameButMarks (unmarkAt S.1 pos) sv :=
          sameButMarks_trans ⟨rfl, rfl, rfl, rfl, rfl, rfl, rfl, rfl, rfl, rfl⟩ hsm
        by_cases hnm2 : S.2.2 - 1 > 0
        · by_cases hp0 : pos = 0
          · exfalso
            subst hp0
            have : S.1.marks.erase (nth S.1.trail 0).var = [] := by
              rw [List.eq_nil_iff_forall_not_mem]
              intro w hw
              obtain ⟨p, hp, _⟩ := hposE w hw
              omega
            rw [this] at hlenE
            simp at hlenE
            omega
          · have hred : resolveLoop (f + 1) sv rs nm cl co js off idx =
                resolveLoop f (unmarkAt S.1 pos)
                  (clipOffset S.2.1 (nth S.1.trail pos).var).1 (S.2.2 - 1) cl
                  (some (nth S.1.trail pos)) (justOf S.1 (nth S.1.trail pos).var)
                  (clipOffset S.2.1 (nth S.1.trail pos).var).2 (pos - 1) := by
              rw [resolveLoop, if_neg hg, ← hSdef, hfm]
              simp only
              rw [if_pos hnm2, if_neg hp0]
            have hwfE : WfSolver (unmarkAt S.1 pos) := wf_of_sameButMarks hsmE hwf
            have hjE : ∀ v ∈ justVars (unmarkAt S.1 pos) (justOf S.1 (nth S.1.trail pos).var),
                ∃ p, p ≤ pos - 1 ∧ (nth (unmarkAt S.1 pos).trail p).var = v := by
              intro v hv
              have hcsv : (unmarkAt S.1 pos).constraints = sv.constraints := hsmE.2.2.2.1
              have hjsv : S.1.just = sv.just := hsm.2.1
              rw [justVars_congr hcsv] at hv
              have hnthp : nth sv.trail pos = nth S.1.trail pos := by rw [htrail]
              have hv' : v ∈ justVars sv (justOf sv (nth sv.trail pos).var) := by
                rw [justOf_congr hjsv] at hv
                rw [hnthp]
                exact hv
              obtain ⟨p, hp, he⟩ := hwf.1 pos (by omega) v hv'
              refine ⟨p, by omega, ?_⟩
              have : (unmarkAt S.1 pos).trail = sv.trail := hsmE.1
              rw [this]
              exact he
            have hmE : ∀ w ∈ (unmarkAt S.1 pos).marks,
                ∃ p, p ≤ pos - 1 ∧ (nth (unmarkAt S.1 pos).trail p).var = w := by
              intro w hw
              obtain ⟨p, hp, he⟩ := hposE w hw
              exact ⟨p, by omega, he⟩
            have hrec := ih (unmarkAt S.1 pos)
              (clipOffset S.2.1 (nth S.1.trail pos).var).1 (S.2.2 - 1) cl
              (some (nth S.1.trail pos)) (justOf S.1 (nth S.1.trail pos).var)
              (clipOffset S.2.1 (nth S.1.trail pos).var).2 (pos - 1)
              hwfE
              (by have : (unmarkAt S.1 pos).trail = sv.trail := hsmE.1; rw [this]; omega)
              (by omega)
              hndE
              (by rw [unmarkAt]; simp only; omega)
              hmE hjE
            constructor
            · intro sv' rs' nm' idx' heq
              rw [hred] at heq
              obtain ⟨c1, c2, c3, c4⟩ := hrec.1 sv' rs' nm' idx' heq
              exact ⟨sameButMarks_trans c1 hsmE, c2, c3, c4⟩
            · intro sv' rs' nm' idx' heq
              rw [hred] at heq
              obtain ⟨c1, c2, c3⟩ := hrec.2 sv' rs' nm' idx' heq
              exact ⟨sameButMarks_trans c1 hsmE, c2, c3⟩
        · have hred : resolveLoop (f + 1) sv rs nm cl co js off idx =
              .done (unmarkAt S.1 pos)
                (clipOffset S.2.1 (nth S.1.trail pos).var).1 (S.2.2 - 1) (pos - 1) := by
            rw [resolveLoop, if_neg hg, ← hSdef, hfm]
            simp only
            rw [if_neg hnm2]
          have hlen1 : S.1.marks.length = 1 := by
            have h1 : 0 < S.1.marks.length :=
              List.length_pos.2 (List.ne_nil_of_mem hv0mem)
            omega
          have hempty : (unmarkAt S.1 pos).marks = [] := by
            rw [unmarkAt]
            simp only
            have := hlenE
            rw [hlen1] at this
            exact List.length_eq_zero.1 this
          constructor
          · intro sv' rs' nm' idx' heq
            rw [hred] at heq
            cases heq
          · intro sv' rs' nm' idx' heq
            rw [hred] at heq
            injection heq with e1 e2 e3 e4
            subst e1; subst e3
            exact ⟨hsmE, hempty, by omega⟩

end BA

namespace BA

theorem rcBail_spec (sv : RSolver) (rs : RState) (nm idx : Nat)
    (hnd : sv.marks.Nodup) (hsync : nm = sv.marks.length)
    (hpos : ∀ v ∈ sv.marks, ∃ p, p ≤ idx ∧ (nth sv.trail p).var = v) :
    (rcBail sv rs nm idx).1 = .lundef ∧
    (rcBail sv rs nm idx).2.1.marks = [] ∧
    sameButMarks (rcBail sv rs nm idx).2.1 sv := by
  obtain ⟨h1, h2⟩ := bailClean_clears idx sv nm hnd hsync hpos
  exact ⟨rfl, h1, h2⟩

theorem rcDone_spec (sv : RSolver) (rs : RState) (cl idx : Nat)
    (hm : sv.marks = []) :
    ((rcDone sv rs 0 cl idx).1 = .ltrue ∧ (rcDone sv rs 0 cl idx).2.2.2 = false) ∨
    ((rcDone sv rs 0 cl idx).1 = .lundef ∧
     (rcDone sv rs 0 cl idx).2.1.trail = sv.trail ∧
     (rcDone sv rs 0 cl idx).2.1.learned = sv.learned ∧
     (rcDone sv rs 0 cl idx).2.1.outLemma = sv.outLemma ∧
     (rcDone sv rs 0 cl idx).2.1.marks = []) := by
  obtain ⟨hft, hfl, hfmk, hfo⟩ := createAssertingLemma_fields sv
    (sv.trail.length + cl + 2) (normalizeActiveCoeffs rs) cl
  rw [rcDone]
  simp only
  set cal := createAssertingLemma sv (normalizeActiveCoeffs rs) cl
    (sv.trail.length + cl + 2) with hcal
  by_cases hc : cal.1 = false
  · rw [if_pos hc]
    refine Or.inr ⟨rfl, ?_, ?_, ?_, ?_⟩
    · show (bailClean cal.2.1 0 idx).1.trail = sv.trail
      rw [bailClean_zero]
      exact hft
    · show (bailClean cal.2.1 0 idx).1.learned = sv.learned
      rw [bailClean_zero]
      exact hfl
    · show (bailClean cal.2.1 0 idx).1.outLemma = sv.outLemma
      rw [bailClean_zero]
      exact hfo
    · show (bailClean cal.2.1 0 idx).1.marks = []
      rw [bailClean_zero]
      rw [hfmk]
      exact hm
  · rw [if_neg hc]
    by_cases hov : (active2card cal.2.1.ps cal.2.2.1).2.overflow = true
    · have hnone := active2card_none_of_overflow cal.2.1.ps cal.2.2.1 hov
      rw [hnone]
      simp only
      rw [if_pos hov]
      refine Or.inr ⟨rfl, ?_, ?_, ?_, ?_⟩
      · show (bailClean cal.2.1 0 idx).1.trail = sv.trail
        rw [bailClean_zero]
        exact hft
      · show (bailClean cal.2.1 0 idx).1.learned = sv.learned
        rw [bailClean_zero]
        exact hfl
      · show (bailClean cal.2.1 0 idx).1.outLemma = sv.outLemma
        rw [bailClean_zero]
        exact hfo
      · show (bailClean cal.2.1 0 idx).1.marks = []
        rw [bailClean_zero]
        rw [hfmk]
        exact hm
    · rcases ha : (active2card cal.2.1.ps cal.2.2.1).1 with _ | c
      · simp only
        rw [if_neg hov]
        exact Or.inl ⟨rfl, rfl⟩
      · simp only
        rw [if_neg hov]
        exact Or.inl ⟨rfl, rfl⟩

end BA

namespace BA

theorem resolveConflict_overflow_spec (sv : RSolver) (rs : RState)
    (hwf : WfSolver sv) (hm : sv.marks = [])
    (hov : (resolveConflict sv rs).2.2.2 = true) :
    (resolveConflict sv rs).1 = .lundef ∧
    (resolveConflict sv rs).2.1.trail = sv.trail ∧
    (resolveConflict sv rs).2.1.learned = sv.learned ∧
    (resolveConflict sv rs).2.1.outLemma = sv.outLemma ∧
    (resolveConflict sv rs).2.1.marks = [] := by
  by_cases hnp : sv.numPropSincePop = 0
  · rw [resolveConflict, if_pos hnp] at hov
    cases hov
  · rw [resolveConflict, if_neg hnp] at hov ⊢
    set cl := getMaxLvl sv sv.notL sv.conflictJs with hcl
    set T := rcStart sv (rcEntryRs rs) cl with hT
    have hstart : sameButMarks T.1 sv ∧ T.1.marks.Nodup ∧ T.2.2.1 = T.1.marks.length ∧
        (∀ v ∈ T.1.marks, ∃ p, p < sv.trail.length ∧ (nth T.1.trail p).var = v) := by
      rcases hnl : sv.notL with _ | co
      · rw [hT, rcStart, hnl]
        refine ⟨sameButMarks_refl sv, by rw [hm]; exact List.nodup_nil, by rw [hm]; rfl, ?_⟩
        intro v hv
        rw [hm] at hv
        cases hv
      · rw [hT, rcStart, hnl]
        simp only
        obtain ⟨hsm, hsub, hnd2, hsync2⟩ := processAntecedent_StepOK sv (rcEntryRs rs) 0 cl co.neg 1
        refine ⟨hsm, hnd2 (by rw [hm]; exact List.nodup_nil), hsync2 (by rw [hm]; rfl), ?_⟩
        intro v hv
        rcases hsub v hv with h | h
        · rw [hm] at h
          cases h
        · simp only [List.mem_singleton, Literal.neg_var] at h
          subst h
          obtain ⟨p, hp, he⟩ := hwf.2.2 co hnl
          refine ⟨p, hp, ?_⟩
          rw [hsm.1]
          exact he
    have hjust : ∀ v ∈ justVars T.1 sv.conflictJs,
        ∃ p, p < sv.trail.length ∧ (nth T.1.trail p).var = v := by
      intro v hv
      have hc : T.1.constraints = sv.constraints := hstart.1.2.2.2.1
      rw [justVars_congr hc] at hv
      obtain ⟨p, hp, he⟩ := hwf.2.1 v hv
      exact ⟨p, hp, by rw [hstart.1.1]; exact he⟩
    have hTlen : T.1.trail.length = sv.trail.length := by rw [hstart.1.1]
    by_cases hlen : sv.trail.length = 0
    · have hnl0 : sv.notL = none := by
        rcases hnl : sv.notL with _ | co
        · rfl
        · obtain ⟨p, hp, _⟩ := hwf.2.2 co hnl
          omega
      have hT20 : T.2.1 = rcEntryRs rs := by rw [hT, rcStart, hnl0]
      obtain ⟨hsm2, hsub2, hnd2, hsync2⟩ :=
        resolveStep_StepOK T.1 T.2.1 T.2.2.1 cl T.2.2.2 sv.conflictJs 1
      set S := resolveStep T.1 T.2.1 T.2.2.1 cl T.2.2.2 sv.conflictJs 1 with hS
      have hSempty : S.1.marks = [] := by
        rw [List.eq_nil_iff_forall_not_mem]
        intro v hv
        rcases hsub2 v hv with h | h
        · obtain ⟨p, hp, _⟩ := hstart.2.2.2 v h
          omega
        · obtain ⟨p, hp, _⟩ := hjust v h
          omega
      have hfm : findMarked S.1 0 = none := by
        rw [findMarked]
        rw [if_neg (show ¬ (S.1.marks.contains (nth S.1.trail 0).var = true) by
          rw [hSempty]; simp)]
      have hguard : ¬ (T.2.1.overflow = true ∨ 1 > 4096) := by
        rw [hT20]
        intro h
        rcases h with h | h
        · exact absurd h (by rw [rcEntryRs, resetCoeffs]; simp)
        · omega
      have h02 : T.1.trail.length + 2 = 0 + 1 + 1 := by omega
      have h01 : T.1.trail.length - 1 = 0 := by omega
      have hloopv : resolveLoop (T.1.trail.length + 2) T.1 T.2.1 T.2.2.1 cl T.2.2.2
          sv.conflictJs 1 (T.1.trail.length - 1) = .bail S.1 S.2.1 S.2.2 0 := by
        rw [h02, h01, resolveLoop, if_neg hguard, ← hS, hfm]
      simp only [hloopv] at hov ⊢
      obtain ⟨b1, b2, b3⟩ := rcBail_spec S.1 S.2.1 S.2.2 0
        (by rw [hSempty]; exact List.nodup_nil)
        (hsync2 hstart.2.2.1)
        (by intro v hv; rw [hSempty] at hv; cases hv)
      have hsm1 : sameButMarks (rcBail S.1 S.2.1 S.2.2 0).2.1 sv :=
        sameButMarks_trans b3 (sameButMarks_trans hsm2 hstart.1)
      exact ⟨b1, hsm1.1, hsm1.2.2.2.2.1, hsm1.2.2.2.2.2.1, b2⟩
    · have hinv := resolveLoop_inv (T.1.trail.length + 2) T.1 T.2.1 T.2.2.1 cl T.2.2.2
        sv.conflictJs 1 (T.1.trail.length - 1)
        (wf_of_sameButMarks hstart.1 hwf)
        (by omega)
        (by omega)
        hstart.2.1
        hstart.2.2.1
        (by
          intro v hv
          obtain ⟨p, hp, he⟩ := hstart.2.2.2 v hv
          exact ⟨p, by omega, he⟩)
        (by
          intro v hv
          obtain ⟨p, hp, he⟩ := hjust v hv
          exact ⟨p, by omega, he⟩)
      rcases hloop : resolveLoop (T.1.trail.length + 2) T.1 T.2.1 T.2.2.1 cl T.2.2.2
          sv.conflictJs 1 (T.1.trail.length - 1) with ⟨sv1, rs1, nm1, idx1⟩ | ⟨sv1, rs1, nm1, idx1⟩
      · obtain ⟨c1, c2, c3, c4⟩ := hinv.1 sv1 rs1 nm1 idx1 hloop
        simp only [hloop] at hov ⊢
        obtain ⟨b1, b2, b3⟩ := rcBail_spec sv1 rs1 nm1 idx1 c2 c3 c4
        have hsm1 : sameButMarks (rcBail sv1 rs1 nm1 idx1).2.1 sv :=
          sameButMarks_trans b3 (sameButMarks_trans c1 hstart.1)
        exact ⟨b1, hsm1.1, hsm1.2.2.2.2.1, hsm1.2.2.2.2.2.1, b2⟩
      · obtain ⟨c1, c2, c3⟩ := hinv.2 sv1 rs1 nm1 idx1 hloop
        subst c3
        simp only [hloop] at hov ⊢
        rcases rcDone_spec sv1 rs1 cl idx1 c2 with ⟨d1, d2⟩ | ⟨d1, d2, d3, d4, d5⟩
        · rw [d2] at hov
          cases hov
        · have hsm1 := sameButMarks_trans c1 hstart.1
          refine ⟨d1, ?_, ?_, ?_, d5⟩
          · rw [d2, hsm1.1]
          · rw [d3, hsm1.2.2.2.2.1]
          · rw [d4, hsm1.2.2.2.2.2.1]

end BA

namespace BA

/-- `svOvfl` is well-formed: the conflict clause's variable 7 is on the
trail, the trail variable has an empty justification, and `m_not_l` is
unset. -/
theorem svOvfl_wf : WfSolver svOvfl := by
  refine ⟨?_, ?_, ?_⟩
  · intro i hi v hv
    have hi0 : i = 0 := by
      have : svOvfl.trail.length = 1 := rfl
      omega
    subst hi0
    have : justVars svOvfl (justOf svOvfl (nth svOvfl.trail 0).var) = [] := rfl
    rw [this] at hv
    cases hv
  · intro v hv
    have : justVars svOvfl svOvfl.conflictJs = [7] := rfl
    rw [this] at hv
    simp only [List.mem_singleton] at hv
    subst hv
    exact ⟨0, by decide, rfl⟩
  · intro l hl
    have : svOvfl.notL = none := rfl
    rw [this] at hl
    cases hl

end BA

/-- **C6**: if the overflow flag becomes latched at any point while
`resolve_conflict` is running, resolution aborts without producing a learned
lemma: the result is `l_undef`, no learned constraint is added, the lemma
slot is not written, the trail is untouched, and every variable marked
during the run is unmarked again (marks end empty, as they began). -/
theorem C6_overflow_abort (sv : BA.RSolver) (rs : BA.RState)
    (hwf : BA.WfSolver sv) (hm : sv.marks = [])
    (hov : (BA.resolveConflict sv rs).2.2.2 = true) :
    (BA.resolveConflict sv rs).1 = .lundef ∧
    (BA.resolveConflict sv rs).2.1.trail = sv.trail ∧
    (BA.resolveConflict sv rs).2.1.learned = sv.learned ∧
    (BA.resolveConflict sv rs).2.1.outLemma = sv.outLemma ∧
    (BA.resolveConflict sv rs).2.1.marks = [] :=
  BA.resolveConflict_overflow_spec sv rs hwf hm hov

/-- Witness for C6: a stale out-of-range coefficient makes the very first
`inc_coeff` latch the overflow flag; `resolve_conflict` returns `l_undef`
with the trail, learned constraints, lemma slot and (empty) marks
unchanged. -/
theorem C6_overflow_abort_witness :
    BA.WfSolver BA.svOvfl ∧ BA.svOvfl.marks = [] ∧
    (BA.resolveConflict BA.svOvfl BA.rsOvfl).2.2.2 = true ∧
    ((BA.resolveConflict BA.svOvfl BA.rsOvfl).1 = .lundef ∧
     (BA.resolveConflict BA.svOvfl BA.rsOvfl).2.1.trail = BA.svOvfl.trail ∧
     (BA.resolveConflict BA.svOvfl BA.rsOvfl).2.1.learned = BA.svOvfl.learned ∧
     (BA.resolveConflict BA.svOvfl BA.rsOvfl).2.1.outLemma = BA.svOvfl.outLemma ∧
     (BA.resolveConflict BA.svOvfl BA.rsOvfl).2.1.marks = []) :=
  ⟨BA.svOvfl_wf, rfl, by decide,
   C6_overflow_abort BA.svOvfl BA.rsOvfl BA.svOvfl_wf rfl (by decide)⟩
